import Mathlib

/-!
# Proximal operators of `proximalRegC.cpp` (GIST package)

A shallow embedding of `src/tools/GIST_package/proximalRegC.cpp`.

* In the kernels `proximalCapL1`, `proximalLSP`, `proximalTNN`, `proximalMCP` the type `double`
  is an arbitrary linearly ordered field `α`: the arithmetic is exact. The theorems about them
  hold for every such field, the reals in particular, and say nothing about rounding.
* `proximalCapL1R` and `proximalMCPR` are the same source lines with the result of every
  arithmetic operation passed through a rounding `fl`; `roundDouble` is the rounding of IEEE
  binary64 (round to nearest, ties to even, gradual underflow), each operation rounded on its
  own. `Dbl` adds the infinities and NaN for the lines of `proximalLSP` that can overflow.
* `double *x` is modelled by a function `Int → α` from `long` offsets to cells,
  `long` and `int` by `Int` (no wrap-around is modelled).
* `for (long i = lo; i < hi; i++) body` is `forLong lo hi body`.
* `sqrt`, `log` (libm) and the `(float)` conversion are arguments of the kernels
  that use them; the conversion `double → long` is truncation toward zero.
* `lspCoordChecked` and `mcpCoordChecked` are the rounds of `proximalLSP` and `proximalMCP`
  with the libm calls and the divisions guarded (`none` outside the domain).
-/

namespace ProximalRegC

/-! ## Control flow -/

/-- Iterations of a counting loop: `k` rounds of `body`, the counter starting at `i`. -/
def forLongAux {S : Type} (body : Int → S → S) : Nat → Int → S → S
  | 0, _, s => s
  | k + 1, i, s => forLongAux body k (i + 1) (body i s)

/-- The loop `for (long i = lo; i < hi; i++) body`: it runs `hi - lo` rounds when `lo < hi`
and none otherwise. -/
def forLong {S : Type} (lo hi : Int) (body : Int → S → S) (s : S) : S :=
  forLongAux body (hi - lo).toNat lo s

/-! ## `mymin` -/

/-- One round of the loop of `mymin`; the state is `(temp, ind)`. -/
def myminStep {α : Type} [LinearOrder α] (x : Int → α) (i : Int) (s : α × Int) : α × Int :=
  let xi := x i
  if xi < s.1 then (xi, i) else s

/-- The function `mymin(x, n)`: index of the smallest of `x[0..n-1]`. -/
def mymin {α : Type} [LinearOrder α] (x : Int → α) (n : Int) : Int :=
  (forLong 1 n (myminStep x) (x 0, 0)).2

/-- A local array `double a[3]` holding `a0, a1, a2`. -/
def arr3 {α : Type} (a0 a1 a2 : α) : Int → α :=
  fun i => if i = 0 then a0 else if i = 1 then a1 else a2

/-! ## Scalar conversions -/

/-- Conversion of a `double` to `long` or `int`: the fractional part is discarded
(truncation toward zero). The range of the target type is not modelled. -/
def trunc {α : Type} [LinearOrderedField α] [FloorRing α] (t : α) : Int :=
  if 0 ≤ t then ⌊t⌋ else ⌈t⌉

/-! ## `proximalCapL1` -/

section Kernels

variable {α : Type} [LinearOrderedField α]

/-- Body of the loop of `proximalCapL1`: the value stored in `x[i]` when `d[i] = di`. -/
def capL1Coord (di lambda theta : α) : α :=
  let u := |di|
  let x1 := max u theta
  let x2 := min theta (max 0.0 (u - lambda))
  let xi := if 0.5 * (x1 + x2 - 2 * u) * (x1 - x2) + lambda * (theta - x2) < 0 then x1 else x2
  if di ≥ 0 then xi else -xi

/-- The kernel `proximalCapL1(x, d, n, lambda, theta)`; the result is the buffer `x` after
the call. -/
def proximalCapL1 (x d : Int → α) (n : Int) (lambda theta : α) : Int → α :=
  forLong 0 n (fun i x => Function.update x i (capL1Coord (d i) lambda theta)) x

/-! ## `proximalLSP` -/

/-- Body of the loop of `proximalLSP`: the value stored in `x[i]` when `d[i] = d_i`.
`narrow` is the conversion `(float) d[i]`, `sqrt` and `log` are the libm functions.
`xtemp[0]` is set to `0.0` once before the loop and never written again; the other cells of
`xtemp` and `ytemp` are written in every round before they are read. -/
def lspCoord (sqrt log narrow : α → α) (d_i lambda theta : α) : α :=
  let di := narrow d_i
  let u := |di|
  let z := u - theta
  let v := z * z - 4.0 * (lambda - u * theta)
  if v < 0 then 0
  else
    let sqrtv := sqrt v
    let xtemp1 := max 0.0 (0.5 * (z + sqrtv))
    let xtemp2 := max 0.0 (0.5 * (z - sqrtv))
    let ytemp0 := 0.5 * u * u
    let tempi := xtemp1 - u
    let ytemp1 := 0.5 * tempi * tempi + lambda * log (1.0 + xtemp1 / theta)
    let tempi := xtemp2 - u
    let ytemp2 := 0.5 * tempi * tempi + lambda * log (1.0 + xtemp2 / theta)
    let tempi := arr3 0.0 xtemp1 xtemp2 (mymin (arr3 ytemp0 ytemp1 ytemp2) 3)
    if di ≥ 0 then tempi else -tempi

/-- The kernel `proximalLSP(x, d, n, lambda, theta)`. -/
def proximalLSP (sqrt log narrow : α → α) (x d : Int → α) (n : Int) (lambda theta : α) :
    Int → α :=
  forLong 0 n (fun i x => Function.update x i (lspCoord sqrt log narrow (d i) lambda theta)) x

/-- The magnitude computed by one round of `proximalLSP` from `u = fabs(di)`: `0` when the
discriminant `v` is negative, otherwise `xtemp[mymin(ytemp, 3)]`. -/
def lspMagnitude (sqrt log : α → α) (u lambda theta : α) : α :=
  let z := u - theta
  let v := z * z - 4.0 * (lambda - u * theta)
  if v < 0 then 0
  else
    let sqrtv := sqrt v
    let xtemp1 := max 0.0 (0.5 * (z + sqrtv))
    let xtemp2 := max 0.0 (0.5 * (z - sqrtv))
    let ytemp0 := 0.5 * u * u
    let tempi := xtemp1 - u
    let ytemp1 := 0.5 * tempi * tempi + lambda * log (1.0 + xtemp1 / theta)
    let tempi := xtemp2 - u
    let ytemp2 := 0.5 * tempi * tempi + lambda * log (1.0 + xtemp2 / theta)
    arr3 0.0 xtemp1 xtemp2 (mymin (arr3 ytemp0 ytemp1 ytemp2) 3)

/-- A conversion that agrees with `(float)` on doubles of magnitude at most `2^-150`, half the
least positive single-precision number `2^-149`: they convert to zero (at `2^-150` the tie
goes to the even neighbour, zero). Other values are left unchanged, as `(float)` leaves the
numbers that single precision represents. -/
def underflowToZero (t : α) : α :=
  if |t| ≤ 1 / 2 ^ 150 then 0 else t

/-- Body of the loop of `proximalTNN`: the new value of a cell holding `xi`. -/
def tnnCell (xi lambda : α) : α :=
  if xi > 0 then max (xi - lambda) 0.0 else min (xi + lambda) 0.0

/-- The kernel `proximalTNN(x, d, n, lambda, theta)`: the loop starts at
`long i = theta - 1` and rewrites `x[i]` from `x[i]`; `d` is not read. -/
def proximalTNN [FloorRing α] (x _d : Int → α) (n : Int) (lambda theta : α) : Int → α :=
  forLong (trunc (theta - 1)) n (fun i x => Function.update x i (tnnCell (x i) lambda)) x

/-! ## `proximalMCP` -/

/-- The assignment `if (... < 0) x[i] = x1; else x[i] = x2;` shared by the three loops of
`proximalMCP`. -/
def mcpPick (u x1 x2 z lambda theta : α) : α :=
  if 0.5 * (x1 + x2 - 2 * u) * (x1 - x2) + x1 * (lambda - 0.5 * x1 / theta)
      - 0.5 * z * lambda < 0 then x1 else x2

/-- The selection shared by the three loops of `proximalMCP`, followed by
`x[i] = d[i] >= 0 ? x[i] : -x[i]`. -/
def mcpSelect (di u x1 x2 z lambda theta : α) : α :=
  let xi := mcpPick u x1 x2 z lambda theta
  if di ≥ 0 then xi else -xi

/-- Body of the loop of `proximalMCP` in the branch `theta > 1`. -/
def mcpCoordGt (z di lambda theta : α) : α :=
  let u := |di|
  let x1 := min z (max 0.0 (theta * (u - lambda) / (theta - 1.0)))
  let x2 := max z u
  mcpSelect di u x1 x2 z lambda theta

/-- Body of the loop of `proximalMCP` in the branch `theta < 1`. -/
def mcpCoordLt (z di lambda theta : α) : α :=
  let u := |di|
  let v := theta * (u - lambda) / (theta - 1)
  let x1 := if |v| > |v - z| then 0.0 else z
  let x2 := max z u
  mcpSelect di u x1 x2 z lambda theta

/-- Body of the loop of `proximalMCP` in the last branch (`theta = 1`). -/
def mcpCoordEq (z di lambda theta : α) : α :=
  let u := |di|
  let x1 := if lambda > u then 0.0 else z
  let x2 := max z u
  mcpSelect di u x1 x2 z lambda theta

/-- The kernel `proximalMCP(x, d, n, lambda, theta)`. -/
def proximalMCP (x d : Int → α) (n : Int) (lambda theta : α) : Int → α :=
  let z := theta * lambda
  if theta > 1 then
    forLong 0 n (fun i x => Function.update x i (mcpCoordGt z (d i) lambda theta)) x
  else if theta < 1 then
    forLong 0 n (fun i x => Function.update x i (mcpCoordLt z (d i) lambda theta)) x
  else
    forLong 0 n (fun i x => Function.update x i (mcpCoordEq z (d i) lambda theta)) x

/-! ## `proximalMCP` with guarded divisions -/

/-- A division guarded by its denominator: `none` when the denominator is zero. -/
def divChecked (a b : α) : Option α :=
  if b = 0 then none else some (a / b)

/-- The selection of `proximalMCP` (`mcpPick`, then the sign of `di`) with the division by
`theta` guarded. -/
def mcpSelectChecked (di u x1 x2 z lambda theta : α) : Option α :=
  (divChecked (0.5 * x1) theta).bind fun q =>
  let xi := if 0.5 * (x1 + x2 - 2 * u) * (x1 - x2) + x1 * (lambda - q) - 0.5 * z * lambda < 0
    then x1 else x2
  some (if di ≥ 0 then xi else -xi)

/-- Body of the loop of `proximalMCP` in the branch `theta > 1`, divisions guarded. -/
def mcpCoordGtChecked (z di lambda theta : α) : Option α :=
  let u := |di|
  (divChecked (theta * (u - lambda)) (theta - 1.0)).bind fun q =>
  let x1 := min z (max 0.0 q)
  let x2 := max z u
  mcpSelectChecked di u x1 x2 z lambda theta

/-- Body of the loop of `proximalMCP` in the branch `theta < 1`, divisions guarded. -/
def mcpCoordLtChecked (z di lambda theta : α) : Option α :=
  let u := |di|
  (divChecked (theta * (u - lambda)) (theta - 1)).bind fun v =>
  let x1 := if |v| > |v - z| then 0.0 else z
  let x2 := max z u
  mcpSelectChecked di u x1 x2 z lambda theta

/-- Body of the loop of `proximalMCP` in the last branch (`theta = 1`), divisions guarded:
the only division is the one by `theta` in the selection. -/
def mcpCoordEqChecked (z di lambda theta : α) : Option α :=
  let u := |di|
  let x1 := if lambda > u then 0.0 else z
  let x2 := max z u
  mcpSelectChecked di u x1 x2 z lambda theta

/-- One round of `proximalMCP` on `d[i] = di`, in the branch taken for `theta`, with every
division guarded. -/
def mcpCoordChecked (di lambda theta : α) : Option α :=
  let z := theta * lambda
  if theta > 1 then mcpCoordGtChecked z di lambda theta
  else if theta < 1 then mcpCoordLtChecked z di lambda theta
  else mcpCoordEqChecked z di lambda theta

/-! ## Double-precision arithmetic

The kernels above read `double` as an exact ordered field. The definitions below read the
same source lines in IEEE binary64 arithmetic: every addition, subtraction, multiplication
and division delivers its exact result rounded to nearest (ties to even), with gradual
underflow. -/

/-- Body of the loop of `proximalCapL1` with the result of every addition, subtraction and
multiplication passed through `fl`, the rounding of the arithmetic; `fabs`, `max`, `min`,
negation and comparisons are exact. With `fl = id` this is `capL1Coord`. -/
def capL1CoordR (fl : α → α) (di lambda theta : α) : α :=
  let u := |di|
  let x1 := max u theta
  let x2 := min theta (max 0.0 (fl (u - lambda)))
  let xi :=
    if fl (fl (fl (0.5 * fl (fl (x1 + x2) - fl (2 * u))) * fl (x1 - x2)) +
        fl (lambda * fl (theta - x2))) < 0 then x1 else x2
  if di ≥ 0 then xi else -xi

/-- The kernel `proximalCapL1` in the arithmetic rounded by `fl`. -/
def proximalCapL1R (fl : α → α) (x d : Int → α) (n : Int) (lambda theta : α) : Int → α :=
  forLong 0 n (fun i x => Function.update x i (capL1CoordR fl (d i) lambda theta)) x

/-- The assignment `if (... < 0) x[i] = x1; else x[i] = x2;` of `proximalMCP` in the
arithmetic rounded by `fl`. -/
def mcpPickR (fl : α → α) (u x1 x2 z lambda theta : α) : α :=
  if fl (fl (fl (fl (0.5 * fl (fl (x1 + x2) - fl (2 * u))) * fl (x1 - x2)) +
      fl (x1 * fl (lambda - fl (fl (0.5 * x1) / theta)))) - fl (fl (0.5 * z) * lambda)) < 0
    then x1 else x2

/-- The selection of `proximalMCP` in the arithmetic rounded by `fl`, followed by
`x[i] = d[i] >= 0 ? x[i] : -x[i]`. -/
def mcpSelectR (fl : α → α) (di u x1 x2 z lambda theta : α) : α :=
  let xi := mcpPickR fl u x1 x2 z lambda theta
  if di ≥ 0 then xi else -xi

/-- Body of the loop of `proximalMCP` in the branch `theta > 1`, rounded by `fl`. -/
def mcpCoordGtR (fl : α → α) (z di lambda theta : α) : α :=
  let u := |di|
  let x1 := min z (max 0.0 (fl (fl (theta * fl (u - lambda)) / fl (theta - 1.0))))
  let x2 := max z u
  mcpSelectR fl di u x1 x2 z lambda theta

/-- Body of the loop of `proximalMCP` in the branch `theta < 1`, rounded by `fl`. -/
def mcpCoordLtR (fl : α → α) (z di lambda theta : α) : α :=
  let u := |di|
  let v := fl (fl (theta * fl (u - lambda)) / fl (theta - 1))
  let x1 := if |v| > |fl (v - z)| then 0.0 else z
  let x2 := max z u
  mcpSelectR fl di u x1 x2 z lambda theta

/-- Body of the loop of `proximalMCP` in the last branch (`theta = 1`), rounded by `fl`. -/
def mcpCoordEqR (fl : α → α) (z di lambda theta : α) : α :=
  let u := |di|
  let x1 := if lambda > u then 0.0 else z
  let x2 := max z u
  mcpSelectR fl di u x1 x2 z lambda theta

/-- The kernel `proximalMCP` in the arithmetic rounded by `fl`. -/
def proximalMCPR (fl : α → α) (x d : Int → α) (n : Int) (lambda theta : α) : Int → α :=
  let z := fl (theta * lambda)
  if theta > 1 then
    forLong 0 n (fun i x => Function.update x i (mcpCoordGtR fl z (d i) lambda theta)) x
  else if theta < 1 then
    forLong 0 n (fun i x => Function.update x i (mcpCoordLtR fl z (d i) lambda theta)) x
  else
    forLong 0 n (fun i x => Function.update x i (mcpCoordEqR fl z (d i) lambda theta)) x

/-- The regulariser of `type = 4` (MCP) in the header comment of the source:
`lambda*|x| - 0.5*x^2/theta` if `|x| ≤ theta*lambda`, and `0.5*theta*lambda^2` otherwise. -/
def mcpPenalty (lambda theta x : α) : α :=
  if |x| ≤ theta * lambda then lambda * |x| - 0.5 * x ^ 2 / theta else 0.5 * theta * lambda ^ 2

/-! ## The objectives of the selection tests -/

/-- The objective `f` of the CapL1 selection on magnitudes:
`f(x) = 0.5*(x - u)^2 + lambda*min(x, theta)`. -/
def capL1Objective (u lambda theta x : α) : α :=
  0.5 * (x - u) ^ 2 + lambda * min x theta

/-- The objective `g` of the MCP selection on magnitudes: `0.5*(x - u)^2` plus
`lambda*x - x^2/(2*theta)` if `x ≤ theta*lambda`, and `0.5*theta*lambda^2` otherwise. -/
def mcpObjective (u lambda theta x : α) : α :=
  0.5 * (x - u) ^ 2 +
    (if x ≤ theta * lambda then lambda * x - x ^ 2 / (2 * theta) else 0.5 * theta * lambda ^ 2)

/-! ## `mexFunction` -/

/-- The entry point `mexFunction`: `prhs[0..4]` are `d, n, lambda, theta, type`; `n` and `type`
arrive as `double` scalars and are converted. The output `plhs[0]` is created by
`mxCreateDoubleMatrix(n, 1, mxREAL)`, whose cells are all zero, and is returned after the
selected kernel has run on it. -/
def mexFunction [FloorRing α] (sqrt log narrow : α → α) (d : Int → α)
    (nArg lambda theta typeArg : α) : Int → α :=
  let n := trunc nArg
  let type := trunc typeArg
  let x : Int → α := fun _ => 0
  match type with
  | 1 => proximalCapL1 x d n lambda theta
  | 2 => proximalLSP sqrt log narrow x d n lambda theta
  | 3 => proximalTNN x d n lambda theta
  | 4 => proximalMCP x d n lambda theta
  | _ => proximalCapL1 x d n lambda theta

end Kernels

/-! ## Loop lemmas -/

theorem forLongAux_inv {S : Type} (body : Int → S → S) (lo hi : Int) (P : Int → S → Prop)
    (hstep : ∀ i s, lo ≤ i → i < hi → P i s → P (i + 1) (body i s)) :
    ∀ (k : Nat) (i : Int) (s : S), i + k = hi → lo ≤ i → P i s →
      P hi (forLongAux body k i s) := by
  intro k
  induction k with
  | zero =>
    intro i s hk _ hP
    have : i = hi := by simpa using hk
    subst this
    simpa [forLongAux] using hP
  | succ k ih =>
    intro i s hk hlo hP
    have hlt : i < hi := by push_cast at hk; omega
    simp only [forLongAux]
    apply ih (i + 1) (body i s)
    · push_cast at hk; omega
    · omega
    · exact hstep i s hlo hlt hP

theorem forLong_inv {S : Type} (body : Int → S → S) (lo hi : Int) (P : Int → S → Prop)
    (hle : lo ≤ hi) (s : S) (h0 : P lo s)
    (hstep : ∀ i s, lo ≤ i → i < hi → P i s → P (i + 1) (body i s)) :
    P hi (forLong lo hi body s) := by
  unfold forLong
  apply forLongAux_inv body lo hi P hstep
  · have : 0 ≤ hi - lo := by omega
    rw [Int.toNat_of_nonneg this]; omega
  · exact le_refl lo
  · exact h0

theorem forLong_empty {S : Type} (body : Int → S → S) (lo hi : Int) (h : hi ≤ lo) (s : S) :
    forLong lo hi body s = s := by
  unfold forLong
  have : (hi - lo).toNat = 0 := by
    apply Int.toNat_eq_zero.mpr; omega
  rw [this]; rfl

/-- The invariant of the loop of `mymin`, met at the end: the state holds the first index of
the minimum of the prefix and its value. -/
theorem mymin_loop_spec {α : Type} [LinearOrder α] (x : Int → α) (n : Int) (hn : 1 ≤ n) :
    let r := forLong 1 n (myminStep x) (x 0, 0)
    r.1 = x r.2 ∧ 0 ≤ r.2 ∧ r.2 < n ∧ (∀ j, 0 ≤ j → j < n → x r.2 ≤ x j) ∧
      (∀ j, 0 ≤ j → j < r.2 → x r.2 < x j) := by
  intro r
  have key := forLong_inv (myminStep x) 1 n
    (fun i s => s.1 = x s.2 ∧ 0 ≤ s.2 ∧ s.2 < i ∧ (∀ j, 0 ≤ j → j < i → x s.2 ≤ x j) ∧
      (∀ j, 0 ≤ j → j < s.2 → x s.2 < x j)) hn (x 0, 0)
    (by
      refine ⟨rfl, le_refl _, by norm_num, ?_, ?_⟩
      · intro j h0 h1
        have : j = 0 := by omega
        subst this; exact le_refl _
      · intro j h0 h1
        exact absurd h1 (by simpa using h0))
    (by
      rintro i ⟨t, k⟩ hi1 _ ⟨ht, hk0, hki, hmin, hfirst⟩
      simp only at ht hk0 hki hmin hfirst
      subst ht
      unfold myminStep
      by_cases hlt : x i < x k
      · simp only [hlt, if_true]
        refine ⟨trivial, by omega, by omega, ?_, ?_⟩
        · intro j h0 h1
          rcases eq_or_lt_of_le (Int.lt_add_one_iff.mp h1) with h | h
          · subst h; exact le_refl _
          · exact le_of_lt (lt_of_lt_of_le hlt (hmin j h0 h))
        · intro j h0 h1
          exact lt_of_lt_of_le hlt (hmin j h0 h1)
      · simp only [hlt, if_false]
        refine ⟨trivial, hk0, by omega, ?_, hfirst⟩
        intro j h0 h1
        rcases eq_or_lt_of_le (Int.lt_add_one_iff.mp h1) with h | h
        · subst h; exact not_lt.mp hlt
        · exact hmin j h0 h)
  exact key

/-! ## Lemmas on the scalar kernels -/

section ScalarLemmas
variable {α : Type} [LinearOrderedField α]

theorem lit_half : (0.5 : α) = 1 / 2 := by norm_num
theorem lit_zero : (0.0 : α) = 0 := by norm_num
theorem lit_one : (1.0 : α) = 1 := by norm_num
theorem lit_four : (4.0 : α) = 4 := by norm_num

theorem forLong_update {β : Type} (G : Int → β → β) (lo hi : Int) (x : Int → β) (j : Int) :
    forLong lo hi (fun i x => Function.update x i (G i (x i))) x j =
      if lo ≤ j ∧ j < hi then G j (x j) else x j := by
  rcases le_or_lt hi lo with h | h
  · rw [forLong_empty _ _ _ h]
    have : ¬ (lo ≤ j ∧ j < hi) := by omega
    simp [this]
  · have key := forLong_inv (fun i x => Function.update x i (G i (x i))) lo hi
      (fun i s => ∀ j, s j = if lo ≤ j ∧ j < i then G j (x j) else x j) (le_of_lt h) x
      (by
        intro j
        have : ¬ (lo ≤ j ∧ j < lo) := by omega
        simp [this])
      (by
        intro i s hlo _ hP j
        by_cases hji : j = i
        · subst hji
          have h1 : s j = x j := by
            rw [hP j]
            have : ¬ (lo ≤ j ∧ j < j) := by omega
            simp [this]
          have h2 : lo ≤ j ∧ j < j + 1 := by omega
          simp [h1, h2]
        · show Function.update s i (G i (s i)) j = _
          rw [Function.update_noteq hji, hP j]
          have : (lo ≤ j ∧ j < i + 1) ↔ (lo ≤ j ∧ j < i) := by omega
          simp only [this])
    exact key j

/-- Facts about the clamp `min hi (max 0 a)` with `0 ≤ hi`. -/
theorem clamp_cases (a hi : α) (h : 0 ≤ hi) :
    (min hi (max 0 a) = 0 ∧ a ≤ 0) ∨ (min hi (max 0 a) = a ∧ 0 ≤ a ∧ a ≤ hi) ∨
      (min hi (max 0 a) = hi ∧ hi ≤ a) := by
  rcases le_total a 0 with h1 | h1
  · left; rw [max_eq_left h1, min_eq_right h]; exact ⟨rfl, h1⟩
  · rw [max_eq_right h1]
    rcases le_total a hi with h2 | h2
    · right; left; rw [min_eq_right h2]; exact ⟨rfl, h1, h2⟩
    · right; right; rw [min_eq_left h2]; exact ⟨rfl, h2⟩

/-- The selection of `proximalCapL1` on magnitudes: the chosen candidate minimises
`0.5*(w-u)^2 + lambda*min(w, theta)` over `w ≥ 0`. -/
theorem capL1_select_min (u lambda theta w : α) (ht : 0 < theta) (hw : 0 ≤ w) :
    let x1 := max u theta
    let x2 := min theta (max 0 (u - lambda))
    let t := if 1 / 2 * (x1 + x2 - 2 * u) * (x1 - x2) + lambda * (theta - x2) < 0 then x1 else x2
    0 ≤ t ∧ 1 / 2 * (t - u) ^ 2 + lambda * min t theta ≤ 1 / 2 * (w - u) ^ 2 + lambda * min w theta := by
  intro x1 x2 t
  have hx1a : theta ≤ x1 := le_max_right _ _
  have hx1b : u ≤ x1 := le_max_left _ _
  have hx1c : x1 = u ∨ x1 = theta := by
    rcases le_total u theta with h | h
    · right; exact max_eq_right h
    · left; exact max_eq_left h
  have hx2 : (x2 = 0 ∧ u - lambda ≤ 0) ∨ (x2 = u - lambda ∧ 0 ≤ u - lambda ∧ u - lambda ≤ theta) ∨
      (x2 = theta ∧ theta ≤ u - lambda) := clamp_cases (u - lambda) theta (le_of_lt ht)
  have hx2a : 0 ≤ x2 := le_min (le_of_lt ht) (le_max_left _ _)
  have hx2b : x2 ≤ theta := min_le_left _ _
  have htdef : t = if 1 / 2 * (x1 + x2 - 2 * u) * (x1 - x2) + lambda * (theta - x2) < 0
      then x1 else x2 := rfl
  clear_value t
  clear_value x1 x2
  have hf1 : 1 / 2 * (x1 - u) ^ 2 + lambda * min x1 theta = 1 / 2 * (x1 - u) ^ 2 + lambda * theta := by
    rw [min_eq_right hx1a]
  have hf2 : 1 / 2 * (x2 - u) ^ 2 + lambda * min x2 theta = 1 / 2 * (x2 - u) ^ 2 + lambda * x2 := by
    rw [min_eq_left hx2b]
  -- the chosen candidate is at least as good as both
  have ht1 : 1 / 2 * (t - u) ^ 2 + lambda * min t theta ≤ 1 / 2 * (x1 - u) ^ 2 + lambda * theta ∧
      1 / 2 * (t - u) ^ 2 + lambda * min t theta ≤ 1 / 2 * (x2 - u) ^ 2 + lambda * x2 ∧ 0 ≤ t := by
    by_cases h5 : 1 / 2 * (x1 + x2 - 2 * u) * (x1 - x2) + lambda * (theta - x2) < 0
    · have : t = x1 := by rw [htdef, if_pos h5]
      rw [this, hf1]
      refine ⟨le_refl _, ?_, by linarith⟩
      have e : 1 / 2 * (x1 + x2 - 2 * u) * (x1 - x2) + lambda * (theta - x2) =
          (1 / 2 * (x1 - u) ^ 2 + lambda * theta) - (1 / 2 * (x2 - u) ^ 2 + lambda * x2) := by ring
      rw [e] at h5; linarith
    · have : t = x2 := by rw [htdef, if_neg h5]
      rw [this, hf2]
      refine ⟨?_, le_refl _, hx2a⟩
      have e : 1 / 2 * (x1 + x2 - 2 * u) * (x1 - x2) + lambda * (theta - x2) =
          (1 / 2 * (x1 - u) ^ 2 + lambda * theta) - (1 / 2 * (x2 - u) ^ 2 + lambda * x2) := by ring
      rw [e] at h5; linarith
  refine ⟨ht1.2.2, ?_⟩
  rcases le_total w theta with h4 | h4
  · rw [min_eq_left h4]
    refine le_trans ht1.2.1 ?_
    rcases hx2 with ⟨e, h⟩ | ⟨e, h, h'⟩ | ⟨e, h⟩
    · rw [e]
      have h6 := mul_nonneg hw (sub_nonneg.mpr h)
      have h7 := sq_nonneg w
      have h8 : 1 / 2 * (w - u) ^ 2 + lambda * w - (1 / 2 * (0 - u) ^ 2 + lambda * 0) =
          1 / 2 * w ^ 2 + w * (0 - (u - lambda)) := by ring
      linarith
    · rw [e]
      have h7 := sq_nonneg (w - (u - lambda))
      have h8 : 1 / 2 * (w - u) ^ 2 + lambda * w -
          (1 / 2 * (u - lambda - u) ^ 2 + lambda * (u - lambda)) =
          1 / 2 * (w - (u - lambda)) ^ 2 := by ring
      linarith
    · rw [e]
      have h6 := mul_nonneg (sub_nonneg.mpr h4) (sub_nonneg.mpr h)
      have h7 := sq_nonneg (w - theta)
      have h8 : 1 / 2 * (w - u) ^ 2 + lambda * w - (1 / 2 * (theta - u) ^ 2 + lambda * theta) =
          1 / 2 * (w - theta) ^ 2 + (theta - w) * (u - lambda - theta) := by ring
      linarith
  · rw [min_eq_right h4]
    refine le_trans ht1.1 ?_
    rcases hx1c with e | e
    · rw [e]
      have h7 := sq_nonneg (w - u)
      have h8 : 1 / 2 * (u - u) ^ 2 = 0 := by ring
      linarith
    · rw [e]
      have : u ≤ theta := by rw [← e]; exact hx1b
      have h6 := mul_nonneg (sub_nonneg.mpr h4) (sub_nonneg.mpr this)
      have h7 := sq_nonneg (w - theta)
      have h8 : 1 / 2 * (w - u) ^ 2 - 1 / 2 * (theta - u) ^ 2 =
          1 / 2 * (w - theta) ^ 2 + (w - theta) * (theta - u) := by ring
      linarith

/-- Restoring the sign of `d` on a magnitude `t ≥ 0`. -/
theorem restore_sign_facts (d t : α) (ht : 0 ≤ t) :
    |if d ≥ 0 then t else -t| = t ∧ ((if d ≥ 0 then t else -t) - d) ^ 2 = (t - |d|) ^ 2 := by
  by_cases h : d ≥ 0
  · rw [if_pos h, abs_of_nonneg ht, abs_of_nonneg h]
    exact ⟨rfl, rfl⟩
  · rw [if_neg h, abs_neg, abs_of_nonneg ht, abs_of_neg (not_le.mp h)]
    exact ⟨rfl, by ring⟩

theorem sq_abs_sub_abs_le (y d : α) : (|y| - |d|) ^ 2 ≤ (y - d) ^ 2 := by
  have h1 : y * d ≤ |y| * |d| := by rw [← abs_mul]; exact le_abs_self _
  have h2 : |y| ^ 2 = y ^ 2 := sq_abs y
  have h3 : |d| ^ 2 = d ^ 2 := sq_abs d
  have e1 : (|y| - |d|) ^ 2 = |y| ^ 2 + |d| ^ 2 - 2 * (|y| * |d|) := by ring
  have e2 : (y - d) ^ 2 = y ^ 2 + d ^ 2 - 2 * (y * d) := by ring
  rw [e1, e2, h2, h3]; linarith

/-- A magnitude that minimises the one-sided problem, with the sign of `d` restored,
minimises the two-sided problem for a penalty of `|x|`. -/
theorem restore_sign_min (r : α → α) (d t : α) (ht : 0 ≤ t)
    (hmin : ∀ w, 0 ≤ w → 1 / 2 * (t - |d|) ^ 2 + r t ≤ 1 / 2 * (w - |d|) ^ 2 + r w) (y : α) :
    1 / 2 * ((if d ≥ 0 then t else -t) - d) ^ 2 + r |if d ≥ 0 then t else -t| ≤
      1 / 2 * (y - d) ^ 2 + r |y| := by
  obtain ⟨h1, h2⟩ := restore_sign_facts d t ht
  rw [h1, h2]
  have h3 := hmin |y| (abs_nonneg y)
  have h4 := sq_abs_sub_abs_le y d
  linarith

theorem proximalCapL1_cell (x d : Int → α) (n : Int) (lambda theta : α) (i : Int)
    (h0 : 0 ≤ i) (hn : i < n) :
    proximalCapL1 x d n lambda theta i = capL1Coord (d i) lambda theta := by
  unfold proximalCapL1
  rw [forLong_update (fun i _ => capL1Coord (d i) lambda theta) 0 n x i, if_pos ⟨h0, hn⟩]

/-- The value stored by `proximalCapL1` is a magnitude `t ≥ 0` with the sign of `d` restored,
and `t` minimises the one-sided problem. -/
theorem capL1Coord_spec (d lambda theta : α) (ht : 0 < theta) :
    ∃ t, 0 ≤ t ∧ capL1Coord d lambda theta = (if d ≥ 0 then t else -t) ∧
      ∀ w, 0 ≤ w → 1 / 2 * (t - |d|) ^ 2 + lambda * min t theta ≤
        1 / 2 * (w - |d|) ^ 2 + lambda * min w theta := by
  refine ⟨_, (capL1_select_min |d| lambda theta 0 ht (le_refl _)).1, ?_, ?_⟩
  · simp only [capL1Coord, lit_half, lit_zero]
  · intro w hw
    exact (capL1_select_min |d| lambda theta w ht hw).2

theorem capL1Coord_min (d lambda theta : α) (ht : 0 < theta) (y : α) :
    1 / 2 * (capL1Coord d lambda theta - d) ^ 2 + lambda * min |capL1Coord d lambda theta| theta ≤
      1 / 2 * (y - d) ^ 2 + lambda * min |y| theta := by
  obtain ⟨t, ht0, hx, hmin⟩ := capL1Coord_spec d lambda theta ht
  rw [hx]
  exact restore_sign_min (fun w => lambda * min w theta) d t ht0 hmin y

/-! ### MCP -/

theorem mcpPenalty_of_le (lambda theta w : α) (hw : 0 ≤ w) (h : w ≤ theta * lambda) :
    mcpPenalty lambda theta w = lambda * w - 1 / 2 * w ^ 2 / theta := by
  unfold mcpPenalty
  rw [abs_of_nonneg hw, if_pos h, lit_half]

theorem mcpPenalty_of_ge (lambda theta w : α) (ht : 0 < theta) (hw : 0 ≤ w)
    (h : theta * lambda ≤ w) :
    mcpPenalty lambda theta w = 1 / 2 * theta * lambda ^ 2 := by
  rcases eq_or_lt_of_le h with h1 | h1
  · rw [mcpPenalty_of_le lambda theta w hw (le_of_eq h1.symm), ← h1]
    field_simp; ring
  · unfold mcpPenalty
    rw [abs_of_nonneg hw, if_neg (not_le.mpr h1), lit_half]

theorem mcpPenalty_abs (lambda theta x : α) :
    mcpPenalty lambda theta |x| = mcpPenalty lambda theta x := by
  unfold mcpPenalty
  rw [abs_abs, sq_abs]

/-- Beyond `z = theta*lambda` the candidate `max z u` is optimal. -/
theorem mcp_far_min (u lambda theta w : α) (ht : 0 < theta) (hl : 0 ≤ lambda)
    (hw : theta * lambda ≤ w) :
    1 / 2 * (max (theta * lambda) u - u) ^ 2 + 1 / 2 * theta * lambda ^ 2 ≤
      1 / 2 * (w - u) ^ 2 + mcpPenalty lambda theta w := by
  have hz : 0 ≤ theta * lambda := mul_nonneg (le_of_lt ht) hl
  rw [mcpPenalty_of_ge lambda theta w ht (le_trans hz hw) hw]
  rcases le_total (theta * lambda) u with h | h
  · rw [max_eq_right h]
    have h7 := sq_nonneg (w - u)
    have h8 : 1 / 2 * (u - u) ^ 2 = 0 := by ring
    linarith
  · rw [max_eq_left h]
    have h6 := mul_nonneg (sub_nonneg.mpr hw) (sub_nonneg.mpr h)
    have h7 := sq_nonneg (w - theta * lambda)
    have h8 : 1 / 2 * (w - u) ^ 2 - 1 / 2 * (theta * lambda - u) ^ 2 =
        1 / 2 * (w - theta * lambda) ^ 2 + (w - theta * lambda) * (theta * lambda - u) := by ring
    linarith

theorem mcpPick_eq (u x1 x2 z lambda theta : α) :
    mcpPick u x1 x2 z lambda theta =
      if 1 / 2 * (x1 + x2 - 2 * u) * (x1 - x2) + x1 * (lambda - 1 / 2 * x1 / theta)
        - 1 / 2 * z * lambda < 0 then x1 else x2 := by
  simp only [mcpPick, lit_half]

/-- The tested quantity of `proximalMCP` is the difference of the objective at `x1` and `x2`. -/
theorem mcp_test_eq (u x1 x2 lambda theta : α) (ht : 0 < theta) :
    1 / 2 * (x1 + x2 - 2 * u) * (x1 - x2) + x1 * (lambda - 1 / 2 * x1 / theta)
        - 1 / 2 * (theta * lambda) * lambda =
      (1 / 2 * (x1 - u) ^ 2 + (lambda * x1 - 1 / 2 * x1 ^ 2 / theta)) -
        (1 / 2 * (x2 - u) ^ 2 + 1 / 2 * theta * lambda ^ 2) := by
  have : theta ≠ 0 := ne_of_gt ht
  field_simp; ring

/-- If `x1` is optimal on `[0, z]` then the selection of `proximalMCP` is optimal on `[0, ∞)`. -/
theorem mcp_pick_min (u lambda theta x1 : α) (ht : 0 < theta) (hl : 0 ≤ lambda)
    (h0 : 0 ≤ x1) (h1 : x1 ≤ theta * lambda)
    (hin : ∀ w, 0 ≤ w → w ≤ theta * lambda →
      1 / 2 * (x1 - u) ^ 2 + (lambda * x1 - 1 / 2 * x1 ^ 2 / theta) ≤
        1 / 2 * (w - u) ^ 2 + (lambda * w - 1 / 2 * w ^ 2 / theta)) :
    0 ≤ mcpPick u x1 (max (theta * lambda) u) (theta * lambda) lambda theta ∧
    ∀ w, 0 ≤ w →
      1 / 2 * (mcpPick u x1 (max (theta * lambda) u) (theta * lambda) lambda theta - u) ^ 2 +
          mcpPenalty lambda theta
            (mcpPick u x1 (max (theta * lambda) u) (theta * lambda) lambda theta) ≤
        1 / 2 * (w - u) ^ 2 + mcpPenalty lambda theta w := by
  have hz : 0 ≤ theta * lambda := mul_nonneg (le_of_lt ht) hl
  have hx2 : theta * lambda ≤ max (theta * lambda) u := le_max_left _ _
  have hx2' : 0 ≤ max (theta * lambda) u := le_trans hz hx2
  have key : ∀ w, 0 ≤ w →
      (1 / 2 * (x1 - u) ^ 2 + (lambda * x1 - 1 / 2 * x1 ^ 2 / theta) ≤
          1 / 2 * (w - u) ^ 2 + mcpPenalty lambda theta w) ∨
      (1 / 2 * (max (theta * lambda) u - u) ^ 2 + 1 / 2 * theta * lambda ^ 2 ≤
          1 / 2 * (w - u) ^ 2 + mcpPenalty lambda theta w) := by
    intro w hw
    rcases le_total w (theta * lambda) with h | h
    · left; rw [mcpPenalty_of_le lambda theta w hw h]; exact hin w hw h
    · right; exact mcp_far_min u lambda theta w ht hl h
  rw [mcpPick_eq]
  rw [mcp_test_eq u x1 (max (theta * lambda) u) lambda theta ht]
  split_ifs with h5
  · refine ⟨h0, fun w hw => ?_⟩
    rw [mcpPenalty_of_le lambda theta x1 h0 h1]
    rcases key w hw with h | h <;> linarith
  · refine ⟨hx2', fun w hw => ?_⟩
    rw [mcpPenalty_of_ge lambda theta _ ht hx2' hx2]
    rcases key w hw with h | h <;> linarith

/-- The shared algebra of the branches `theta ≠ 1`: with the stationary point
`a = theta*(u - lambda)/(theta - 1)`, the inner objective differs between `w` and `x1` by
`(theta-1)/theta * (0.5*(w-x1)^2 + (w-x1)*(x1-a))`. -/
theorem mcp_inner_diff (u lambda theta x1 w : α) (ht : 0 < theta) (h1 : theta - 1 ≠ 0) :
    (1 / 2 * (w - u) ^ 2 + (lambda * w - 1 / 2 * w ^ 2 / theta)) -
        (1 / 2 * (x1 - u) ^ 2 + (lambda * x1 - 1 / 2 * x1 ^ 2 / theta)) =
      (theta - 1) / theta * (1 / 2 * (w - x1) ^ 2 +
        (w - x1) * (x1 - theta * (u - lambda) / (theta - 1))) := by
  have : theta ≠ 0 := ne_of_gt ht
  field_simp; ring

theorem mcp_inner_gt (u lambda theta w : α) (ht : 1 < theta) (hl : 0 ≤ lambda)
    (_hw0 : 0 ≤ w) (hwz : w ≤ theta * lambda) :
    1 / 2 * (min (theta * lambda) (max 0 (theta * (u - lambda) / (theta - 1))) - u) ^ 2 +
        (lambda * min (theta * lambda) (max 0 (theta * (u - lambda) / (theta - 1))) -
          1 / 2 * min (theta * lambda) (max 0 (theta * (u - lambda) / (theta - 1))) ^ 2 / theta) ≤
      1 / 2 * (w - u) ^ 2 + (lambda * w - 1 / 2 * w ^ 2 / theta) := by
  have ht0 : 0 < theta := lt_trans zero_lt_one ht
  have hz : 0 ≤ theta * lambda := mul_nonneg (le_of_lt ht0) hl
  have hk : 0 ≤ (theta - 1) / theta := div_nonneg (by linarith) (le_of_lt ht0)
  have hd := mcp_inner_diff u lambda theta
    (min (theta * lambda) (max 0 (theta * (u - lambda) / (theta - 1)))) w ht0 (by linarith)
  have hc := clamp_cases (theta * (u - lambda) / (theta - 1)) (theta * lambda) hz
  generalize theta * (u - lambda) / (theta - 1) = a at hd hc ⊢
  generalize min (theta * lambda) (max 0 a) = x1 at hd hc ⊢
  have hb : 0 ≤ 1 / 2 * (w - x1) ^ 2 + (w - x1) * (x1 - a) := by
    have h7 := sq_nonneg (w - x1)
    rcases hc with ⟨e, h⟩ | ⟨e, -, -⟩ | ⟨e, h⟩
    · subst e
      have h6 := mul_nonneg _hw0 (sub_nonneg.mpr h)
      have h8 : (w - 0) * (0 - a) = w * (0 - a) := by ring
      linarith
    · subst e
      have h8 : (w - x1) * (x1 - x1) = 0 := by ring
      linarith
    · subst e
      have h6 := mul_nonneg (sub_nonneg.mpr hwz) (sub_nonneg.mpr h)
      have h8 : (w - theta * lambda) * (theta * lambda - a) =
          (theta * lambda - w) * (a - theta * lambda) := by ring
      linarith
  have := mul_nonneg hk hb
  linarith

theorem mcp_inner_lt (u lambda theta w : α) (ht0 : 0 < theta) (ht : theta < 1) (hl : 0 ≤ lambda)
    (hw0 : 0 ≤ w) (hwz : w ≤ theta * lambda) :
    1 / 2 * ((if |theta * (u - lambda) / (theta - 1)| >
          |theta * (u - lambda) / (theta - 1) - theta * lambda| then 0 else theta * lambda) - u) ^ 2 +
        (lambda * (if |theta * (u - lambda) / (theta - 1)| >
          |theta * (u - lambda) / (theta - 1) - theta * lambda| then 0 else theta * lambda) -
          1 / 2 * (if |theta * (u - lambda) / (theta - 1)| >
          |theta * (u - lambda) / (theta - 1) - theta * lambda| then 0 else theta * lambda) ^ 2
            / theta) ≤
      1 / 2 * (w - u) ^ 2 + (lambda * w - 1 / 2 * w ^ 2 / theta) := by
  have hz : 0 ≤ theta * lambda := mul_nonneg (le_of_lt ht0) hl
  have hk : (theta - 1) / theta ≤ 0 := div_nonpos_of_nonpos_of_nonneg (by linarith) (le_of_lt ht0)
  have hd := fun x1 => mcp_inner_diff u lambda theta x1 w ht0 (by linarith)
  generalize theta * (u - lambda) / (theta - 1) = v at hd ⊢
  generalize theta * lambda = z at hd hz hwz ⊢
  have habs : |v| > |v - z| ↔ 0 < z * (2 * v - z) := by
    rw [gt_iff_lt, ← sq_lt_sq]
    constructor <;> intro h <;> nlinarith
  by_cases hc : |v| > |v - z|
  · rw [if_pos hc]
    have hc' := habs.mp hc
    have hd0 := hd 0
    -- `z > 0` and `v > z/2`
    have hzpos : 0 < z := by
      rcases eq_or_lt_of_le hz with h | h
      · rw [← h] at hc'; simp at hc'
      · exact h
    have hv : 0 < 2 * v - z := by
      by_contra hneg
      have := mul_nonneg (le_of_lt hzpos) (sub_nonneg.mpr (not_lt.mp hneg))
      linarith
    have hb : 1 / 2 * (w - 0) ^ 2 + (w - 0) * (0 - v) ≤ 0 := by
      have h6 := mul_nonneg hw0 (show 0 ≤ 2 * v - w by linarith)
      have h8 : 1 / 2 * (w - 0) ^ 2 + (w - 0) * (0 - v) = -(1 / 2) * (w * (2 * v - w)) := by ring
      linarith
    have := mul_nonneg_of_nonpos_of_nonpos hk hb
    linarith
  · rw [if_neg hc]
    have hc' := not_lt.mp (fun h => hc (habs.mpr h))
    have hdz := hd z
    have hb : 1 / 2 * (w - z) ^ 2 + (w - z) * (z - v) ≤ 0 := by
      have h8 : 1 / 2 * (w - z) ^ 2 + (w - z) * (z - v) =
          -(1 / 2) * ((z - w) * (w + z - 2 * v)) := by ring
      have h6 : 0 ≤ (z - w) * (w + z - 2 * v) := by
        rcases eq_or_lt_of_le hz with h | h
        · have : w = z := le_antisymm hwz (by rw [← h]; exact hw0)
          rw [this]; simp
        · have hv : 2 * v - z ≤ 0 := by
            by_contra hneg
            have := mul_pos h (not_le.mp hneg)
            linarith
          exact mul_nonneg (sub_nonneg.mpr hwz) (by linarith)
      linarith
    have := mul_nonneg_of_nonpos_of_nonpos hk hb
    linarith

theorem mcp_inner_eq (u lambda w : α) (hw0 : 0 ≤ w) (hwz : w ≤ 1 * lambda) :
    1 / 2 * ((if lambda > u then 0 else 1 * lambda) - u) ^ 2 +
        (lambda * (if lambda > u then 0 else 1 * lambda) -
          1 / 2 * (if lambda > u then 0 else 1 * lambda) ^ 2 / 1) ≤
      1 / 2 * (w - u) ^ 2 + (lambda * w - 1 / 2 * w ^ 2 / 1) := by
  rw [one_mul] at hwz
  by_cases hc : lambda > u
  · rw [if_pos hc]
    have h6 := mul_nonneg hw0 (le_of_lt (sub_pos.mpr hc))
    have h8 : 1 / 2 * (w - u) ^ 2 + (lambda * w - 1 / 2 * w ^ 2 / 1) -
        (1 / 2 * (0 - u) ^ 2 + (lambda * 0 - 1 / 2 * 0 ^ 2 / 1)) = w * (lambda - u) := by ring
    linarith
  · rw [if_neg hc, one_mul]
    have h6 := mul_nonneg (sub_nonneg.mpr hwz) (sub_nonneg.mpr (not_lt.mp hc))
    have h8 : 1 / 2 * (w - u) ^ 2 + (lambda * w - 1 / 2 * w ^ 2 / 1) -
        (1 / 2 * (lambda - u) ^ 2 + (lambda * lambda - 1 / 2 * lambda ^ 2 / 1)) =
        (lambda - w) * (u - lambda) := by ring
    linarith

theorem mcpCoordGt_spec (d lambda theta : α) (ht : 1 < theta) (hl : 0 ≤ lambda) :
    ∃ t, 0 ≤ t ∧ mcpCoordGt (theta * lambda) d lambda theta = (if d ≥ 0 then t else -t) ∧
      ∀ w, 0 ≤ w → 1 / 2 * (t - |d|) ^ 2 + mcpPenalty lambda theta t ≤
        1 / 2 * (w - |d|) ^ 2 + mcpPenalty lambda theta w := by
  have ht0 : 0 < theta := lt_trans zero_lt_one ht
  have hz : 0 ≤ theta * lambda := mul_nonneg (le_of_lt ht0) hl
  have h := mcp_pick_min |d| lambda theta
    (min (theta * lambda) (max 0 (theta * (|d| - lambda) / (theta - 1)))) ht0 hl
    (le_min hz (le_max_left _ _)) (min_le_left _ _)
    (fun w hw0 hwz => mcp_inner_gt |d| lambda theta w ht hl hw0 hwz)
  refine ⟨_, h.1, ?_, h.2⟩
  simp only [mcpCoordGt, mcpSelect, lit_zero, lit_one]

theorem mcpCoordLt_spec (d lambda theta : α) (ht0 : 0 < theta) (ht : theta < 1)
    (hl : 0 ≤ lambda) :
    ∃ t, 0 ≤ t ∧ mcpCoordLt (theta * lambda) d lambda theta = (if d ≥ 0 then t else -t) ∧
      ∀ w, 0 ≤ w → 1 / 2 * (t - |d|) ^ 2 + mcpPenalty lambda theta t ≤
        1 / 2 * (w - |d|) ^ 2 + mcpPenalty lambda theta w := by
  have hz : 0 ≤ theta * lambda := mul_nonneg (le_of_lt ht0) hl
  have h := mcp_pick_min |d| lambda theta
    (if |theta * (|d| - lambda) / (theta - 1)| >
      |theta * (|d| - lambda) / (theta - 1) - theta * lambda| then 0 else theta * lambda) ht0 hl
    (by split_ifs; exact le_refl _; exact hz) (by split_ifs; exact hz; exact le_refl _)
    (fun w hw0 hwz => mcp_inner_lt |d| lambda theta w ht0 ht hl hw0 hwz)
  refine ⟨_, h.1, ?_, h.2⟩
  simp only [mcpCoordLt, mcpSelect, lit_zero]

theorem mcpCoordEq_spec (d lambda : α) (hl : 0 ≤ lambda) :
    ∃ t, 0 ≤ t ∧ mcpCoordEq (1 * lambda) d lambda 1 = (if d ≥ 0 then t else -t) ∧
      ∀ w, 0 ≤ w → 1 / 2 * (t - |d|) ^ 2 + mcpPenalty lambda 1 t ≤
        1 / 2 * (w - |d|) ^ 2 + mcpPenalty lambda 1 w := by
  have hz : 0 ≤ 1 * lambda := by rw [one_mul]; exact hl
  have h := mcp_pick_min |d| lambda 1
    (if lambda > |d| then 0 else 1 * lambda) zero_lt_one hl
    (by split_ifs; exact le_refl _; exact hz) (by split_ifs; exact hz; exact le_refl _)
    (fun w hw0 hwz => mcp_inner_eq |d| lambda w hw0 hwz)
  refine ⟨_, h.1, ?_, h.2⟩
  simp only [mcpCoordEq, mcpSelect, lit_zero]

/-- Every cell written by `proximalMCP` holds a magnitude `t ≥ 0` carrying the sign of `d[i]`,
and `t` minimises the one-sided MCP problem, in each of the three branches. -/
theorem proximalMCP_cell_spec (x d : Int → α) (n : Int) (lambda theta : α) (hl : 0 ≤ lambda)
    (ht : 0 < theta) (i : Int) (h0 : 0 ≤ i) (hn : i < n) :
    ∃ t, 0 ≤ t ∧ proximalMCP x d n lambda theta i = (if d i ≥ 0 then t else -t) ∧
      ∀ w, 0 ≤ w → 1 / 2 * (t - |d i|) ^ 2 + mcpPenalty lambda theta t ≤
        1 / 2 * (w - |d i|) ^ 2 + mcpPenalty lambda theta w := by
  unfold proximalMCP
  by_cases h1 : theta > 1
  · simp only [if_pos h1]
    rw [forLong_update (fun i _ => mcpCoordGt (theta * lambda) (d i) lambda theta) 0 n x i,
      if_pos ⟨h0, hn⟩]
    exact mcpCoordGt_spec (d i) lambda theta h1 hl
  · by_cases h2 : theta < 1
    · simp only [if_neg h1, if_pos h2]
      rw [forLong_update (fun i _ => mcpCoordLt (theta * lambda) (d i) lambda theta) 0 n x i,
        if_pos ⟨h0, hn⟩]
      exact mcpCoordLt_spec (d i) lambda theta ht h2 hl
    · simp only [if_neg h1, if_neg h2]
      rw [forLong_update (fun i _ => mcpCoordEq (theta * lambda) (d i) lambda theta) 0 n x i,
        if_pos ⟨h0, hn⟩]
      have : theta = 1 := le_antisymm (not_lt.mp h1) (not_lt.mp h2)
      subst this
      exact mcpCoordEq_spec (d i) lambda hl

theorem proximalMCP_cell_min (x d : Int → α) (n : Int) (lambda theta : α) (hl : 0 ≤ lambda)
    (ht : 0 < theta) (i : Int) (h0 : 0 ≤ i) (hn : i < n) (y : α) :
    1 / 2 * (proximalMCP x d n lambda theta i - d i) ^ 2 +
        mcpPenalty lambda theta (proximalMCP x d n lambda theta i) ≤
      1 / 2 * (y - d i) ^ 2 + mcpPenalty lambda theta y := by
  obtain ⟨t, ht0, hx, hmin⟩ := proximalMCP_cell_spec x d n lambda theta hl ht i h0 hn
  rw [hx]
  have := restore_sign_min (fun w => mcpPenalty lambda theta w) (d i) t ht0 hmin y
  simp only [mcpPenalty_abs] at this
  exact this

end ScalarLemmas

/-! ### LSP (over the reals) -/

section LSP

/-- The one-sided LSP objective `0.5*(w-u)^2 + lambda*log(1 + w/theta)`. -/
theorem lsp_hasDerivAt (u lambda theta x : ℝ) (ht : 0 < theta) (hx : 0 ≤ x) :
    HasDerivAt (fun w : ℝ => 1 / 2 * (w - u) ^ 2 + lambda * Real.log (1 + w / theta))
      (((x - u) * (x + theta) + lambda) / (x + theta)) x := by
  have hpos : 0 < 1 + x / theta := by have := div_nonneg hx (le_of_lt ht); linarith
  have h1 : HasDerivAt (fun w : ℝ => 1 / 2 * (w - u) ^ 2) (1 / 2 * (2 * (x - u) ^ (2 - 1) * 1)) x :=
    (((hasDerivAt_id x).sub_const u).pow 2).const_mul (1 / 2)
  have h2 : HasDerivAt (fun w : ℝ => 1 + w / theta) (0 + 1 / theta) x :=
    (hasDerivAt_const x (1 : ℝ)).add ((hasDerivAt_id x).div_const theta)
  have h3 : HasDerivAt (fun w : ℝ => lambda * Real.log (1 + w / theta))
      (lambda * ((0 + 1 / theta) / (1 + x / theta))) x :=
    (h2.log (ne_of_gt hpos)).const_mul lambda
  have h4 := h1.add h3
  convert h4 using 1
  have e1 : theta ≠ 0 := ne_of_gt ht
  have e2 : x + theta ≠ 0 := by have : 0 < x + theta := by linarith
                                exact ne_of_gt this
  have e3 : theta + x ≠ 0 := by rw [add_comm]; exact e2
  field_simp
  ring

theorem lsp_slope (u lambda theta a b : ℝ) (ht : 0 < theta) (ha : 0 ≤ a) (hab : a < b) :
    ∃ c, a < c ∧ c < b ∧
      ((c - u) * (c + theta) + lambda) / (c + theta) * (b - a) =
        (1 / 2 * (b - u) ^ 2 + lambda * Real.log (1 + b / theta)) -
          (1 / 2 * (a - u) ^ 2 + lambda * Real.log (1 + a / theta)) := by
  have hc : ContinuousOn (fun w : ℝ => 1 / 2 * (w - u) ^ 2 + lambda * Real.log (1 + w / theta))
      (Set.Icc a b) := by
    intro x hx
    exact (lsp_hasDerivAt u lambda theta x ht (le_trans ha hx.1)).continuousAt.continuousWithinAt
  obtain ⟨c, hcm, hceq⟩ := exists_hasDerivAt_eq_slope
    (fun w : ℝ => 1 / 2 * (w - u) ^ 2 + lambda * Real.log (1 + w / theta))
    (fun x => ((x - u) * (x + theta) + lambda) / (x + theta)) hab hc
    (fun x hx => lsp_hasDerivAt u lambda theta x ht (le_trans ha (le_of_lt hx.1)))
  refine ⟨c, hcm.1, hcm.2, ?_⟩
  have hne : b - a ≠ 0 := ne_of_gt (sub_pos.mpr hab)
  rw [hceq, div_mul_cancel₀ _ hne]

/-- Where the numerator of the derivative is non-negative the objective does not decrease. -/
theorem lsp_mono (u lambda theta a b : ℝ) (ht : 0 < theta) (ha : 0 ≤ a) (hab : a ≤ b)
    (hq : ∀ c, a < c → c < b → 0 ≤ (c - u) * (c + theta) + lambda) :
    1 / 2 * (a - u) ^ 2 + lambda * Real.log (1 + a / theta) ≤
      1 / 2 * (b - u) ^ 2 + lambda * Real.log (1 + b / theta) := by
  rcases eq_or_lt_of_le hab with h | h
  · rw [h]
  · obtain ⟨c, h1, h2, he⟩ := lsp_slope u lambda theta a b ht ha h
    have hpos : 0 < c + theta := by linarith
    have := mul_nonneg (div_nonneg (hq c h1 h2) (le_of_lt hpos)) (le_of_lt (sub_pos.mpr h))
    linarith

/-- Where the numerator of the derivative is non-positive the objective does not increase. -/
theorem lsp_anti (u lambda theta a b : ℝ) (ht : 0 < theta) (ha : 0 ≤ a) (hab : a ≤ b)
    (hq : ∀ c, a < c → c < b → (c - u) * (c + theta) + lambda ≤ 0) :
    1 / 2 * (b - u) ^ 2 + lambda * Real.log (1 + b / theta) ≤
      1 / 2 * (a - u) ^ 2 + lambda * Real.log (1 + a / theta) := by
  rcases eq_or_lt_of_le hab with h | h
  · rw [h]
  · obtain ⟨c, h1, h2, he⟩ := lsp_slope u lambda theta a b ht ha h
    have hpos : 0 < c + theta := by linarith
    have := mul_nonneg (div_nonneg (neg_nonneg.mpr (hq c h1 h2)) (le_of_lt hpos))
      (le_of_lt (sub_pos.mpr h))
    have e : -((c - u) * (c + theta) + lambda) / (c + theta) * (b - a) =
        -(((c - u) * (c + theta) + lambda) / (c + theta) * (b - a)) := by ring
    rw [e] at this
    linarith

/-- The numerator of the derivative, in terms of the discriminant `v` of the source. -/
theorem lsp_numerator (u lambda theta c sv : ℝ)
    (hs : sv ^ 2 = (u - theta) * (u - theta) - 4 * (lambda - u * theta)) :
    4 * ((c - u) * (c + theta) + lambda) =
      (2 * c - (u - theta) - sv) * (2 * c - (u - theta) + sv) := by
  have e : (2 * c - (u - theta) - sv) * (2 * c - (u - theta) + sv) =
      (2 * c - (u - theta)) ^ 2 - sv ^ 2 := by ring
  rw [e, hs]; ring

/-- With a negative discriminant the objective is non-decreasing on `[0, ∞)`. -/
theorem lsp_min_neg_disc (u lambda theta w : ℝ) (ht : 0 < theta) (hw : 0 ≤ w)
    (hv : (u - theta) * (u - theta) - 4 * (lambda - u * theta) < 0) :
    1 / 2 * (0 - u) ^ 2 + lambda * Real.log (1 + 0 / theta) ≤
      1 / 2 * (w - u) ^ 2 + lambda * Real.log (1 + w / theta) := by
  apply lsp_mono u lambda theta 0 w ht (le_refl _) hw
  intro c _ _
  have h7 := sq_nonneg (2 * c - (u - theta))
  have e : 4 * ((c - u) * (c + theta) + lambda) =
      (2 * c - (u - theta)) ^ 2 - ((u - theta) * (u - theta) - 4 * (lambda - u * theta)) := by
    ring
  linarith

/-- With a non-negative discriminant the minimum over `[0, ∞)` is attained at `0` or at the
larger root clipped at `0`. -/
theorem lsp_min_candidates (u lambda theta w : ℝ) (ht : 0 < theta) (hw : 0 ≤ w)
    (hv : 0 ≤ (u - theta) * (u - theta) - 4 * (lambda - u * theta)) :
    (1 / 2 * (0 - u) ^ 2 + lambda * Real.log (1 + 0 / theta) ≤
      1 / 2 * (w - u) ^ 2 + lambda * Real.log (1 + w / theta)) ∨
    (1 / 2 * (max 0 (1 / 2 * ((u - theta) +
          Real.sqrt ((u - theta) * (u - theta) - 4 * (lambda - u * theta)))) - u) ^ 2 +
        lambda * Real.log (1 + max 0 (1 / 2 * ((u - theta) +
          Real.sqrt ((u - theta) * (u - theta) - 4 * (lambda - u * theta)))) / theta) ≤
      1 / 2 * (w - u) ^ 2 + lambda * Real.log (1 + w / theta)) := by
  have hs0 : 0 ≤ Real.sqrt ((u - theta) * (u - theta) - 4 * (lambda - u * theta)) :=
    Real.sqrt_nonneg _
  have hs : Real.sqrt ((u - theta) * (u - theta) - 4 * (lambda - u * theta)) ^ 2 =
      (u - theta) * (u - theta) - 4 * (lambda - u * theta) := Real.sq_sqrt hv
  have hq := fun c => lsp_numerator u lambda theta c _ hs
  generalize Real.sqrt ((u - theta) * (u - theta) - 4 * (lambda - u * theta)) = sv at hs0 hs hq ⊢
  have hc1 : 0 ≤ max 0 (1 / 2 * ((u - theta) + sv)) := le_max_left _ _
  have hc1' : 1 / 2 * ((u - theta) + sv) ≤ max 0 (1 / 2 * ((u - theta) + sv)) := le_max_right _ _
  rcases le_or_lt (max 0 (1 / 2 * ((u - theta) + sv))) w with h | h
  · right
    apply lsp_mono u lambda theta _ w ht hc1 h
    intro c hc _
    have := mul_nonneg (show 0 ≤ 2 * c - (u - theta) - sv by linarith)
      (show 0 ≤ 2 * c - (u - theta) + sv by linarith)
    have := hq c
    linarith
  · have hr : max 0 (1 / 2 * ((u - theta) + sv)) = 1 / 2 * ((u - theta) + sv) := by
      apply max_eq_right
      by_contra hneg
      rw [max_eq_left (le_of_lt (not_le.mp hneg))] at h
      linarith
    rw [hr] at h ⊢
    rcases le_or_lt (1 / 2 * ((u - theta) - sv)) w with h' | h'
    · right
      apply lsp_anti u lambda theta w _ ht hw (le_of_lt h)
      intro c hc1 hc2
      have := mul_nonneg (show 0 ≤ (u - theta) + sv - 2 * c by linarith)
        (show 0 ≤ 2 * c - (u - theta) + sv by linarith)
      have := hq c
      have e : (2 * c - (u - theta) - sv) * (2 * c - (u - theta) + sv) =
          -(((u - theta) + sv - 2 * c) * (2 * c - (u - theta) + sv)) := by ring
      linarith
    · left
      apply lsp_mono u lambda theta 0 w ht (le_refl _) hw
      intro c _ hc2
      have := mul_nonneg (show 0 ≤ (u - theta) + sv - 2 * c by linarith)
        (show 0 ≤ (u - theta) - sv - 2 * c by linarith)
      have := hq c
      have e : (2 * c - (u - theta) - sv) * (2 * c - (u - theta) + sv) =
          ((u - theta) + sv - 2 * c) * ((u - theta) - sv - 2 * c) := by ring
      linarith

/-- The value stored by `proximalLSP` (libm instantiated on the reals) is a magnitude `t ≥ 0`
carrying the sign of the narrowed input, and `t` minimises the one-sided problem for the
magnitude `u` of the narrowed input. -/
theorem lspCoord_spec (narrow : ℝ → ℝ) (d lambda theta : ℝ) (ht : 0 < theta) :
    ∃ t, 0 ≤ t ∧
      lspCoord Real.sqrt Real.log narrow d lambda theta = (if narrow d ≥ 0 then t else -t) ∧
      ∀ w, 0 ≤ w → 1 / 2 * (t - |narrow d|) ^ 2 + lambda * Real.log (1 + t / theta) ≤
        1 / 2 * (w - |narrow d|) ^ 2 + lambda * Real.log (1 + w / theta) := by
  simp only [lspCoord, lit_half, lit_zero, lit_one, lit_four]
  generalize |narrow d| = u
  by_cases hv : (u - theta) * (u - theta) - 4 * (lambda - u * theta) < 0
  · rw [if_pos hv]
    refine ⟨0, le_refl _, by simp, fun w hw => lsp_min_neg_disc u lambda theta w ht hw hv⟩
  · rw [if_neg hv]
    have hcand := fun w hw => lsp_min_candidates u lambda theta w ht hw (not_lt.mp hv)
    generalize Real.sqrt ((u - theta) * (u - theta) - 4 * (lambda - u * theta)) = sv at hcand ⊢
    have hm := mymin_loop_spec (arr3 (1 / 2 * u * u)
      (1 / 2 * (max 0 (1 / 2 * (u - theta + sv)) - u) * (max 0 (1 / 2 * (u - theta + sv)) - u) +
        lambda * Real.log (1 + max 0 (1 / 2 * (u - theta + sv)) / theta))
      (1 / 2 * (max 0 (1 / 2 * (u - theta - sv)) - u) * (max 0 (1 / 2 * (u - theta - sv)) - u) +
        lambda * Real.log (1 + max 0 (1 / 2 * (u - theta - sv)) / theta))) 3 (by norm_num)
    simp only [] at hm
    obtain ⟨-, hk0, hk3, hmin, -⟩ := hm
    have hk : mymin (arr3 (1 / 2 * u * u)
      (1 / 2 * (max 0 (1 / 2 * (u - theta + sv)) - u) * (max 0 (1 / 2 * (u - theta + sv)) - u) +
        lambda * Real.log (1 + max 0 (1 / 2 * (u - theta + sv)) / theta))
      (1 / 2 * (max 0 (1 / 2 * (u - theta - sv)) - u) * (max 0 (1 / 2 * (u - theta - sv)) - u) +
        lambda * Real.log (1 + max 0 (1 / 2 * (u - theta - sv)) / theta))) 3 =
        (forLong 1 3 (myminStep (arr3 (1 / 2 * u * u)
      (1 / 2 * (max 0 (1 / 2 * (u - theta + sv)) - u) * (max 0 (1 / 2 * (u - theta + sv)) - u) +
        lambda * Real.log (1 + max 0 (1 / 2 * (u - theta + sv)) / theta))
      (1 / 2 * (max 0 (1 / 2 * (u - theta - sv)) - u) * (max 0 (1 / 2 * (u - theta - sv)) - u) +
        lambda * Real.log (1 + max 0 (1 / 2 * (u - theta - sv)) / theta)))) (_, 0)).2 := rfl
    rw [hk]
    generalize (forLong 1 3 (myminStep (arr3 (1 / 2 * u * u)
      (1 / 2 * (max 0 (1 / 2 * (u - theta + sv)) - u) * (max 0 (1 / 2 * (u - theta + sv)) - u) +
        lambda * Real.log (1 + max 0 (1 / 2 * (u - theta + sv)) / theta))
      (1 / 2 * (max 0 (1 / 2 * (u - theta - sv)) - u) * (max 0 (1 / 2 * (u - theta - sv)) - u) +
        lambda * Real.log (1 + max 0 (1 / 2 * (u - theta - sv)) / theta)))) (_, 0)).2 = k
      at hk0 hk3 hmin ⊢
    have h0 := hmin 0 (le_refl _) (by norm_num)
    have h1 := hmin 1 (by norm_num) (by norm_num)
    refine ⟨arr3 0 (max 0 (1 / 2 * (u - theta + sv))) (max 0 (1 / 2 * (u - theta - sv))) k,
      ?_, rfl, ?_⟩
    · unfold arr3
      split_ifs
      · exact le_refl _
      · exact le_max_left _ _
      · exact le_max_left _ _
    · intro w hw
      have hy : 1 / 2 * (arr3 0 (max 0 (1 / 2 * (u - theta + sv)))
            (max 0 (1 / 2 * (u - theta - sv))) k - u) ^ 2 +
          lambda * Real.log (1 + arr3 0 (max 0 (1 / 2 * (u - theta + sv)))
            (max 0 (1 / 2 * (u - theta - sv))) k / theta) =
          arr3 (1 / 2 * u * u)
            (1 / 2 * (max 0 (1 / 2 * (u - theta + sv)) - u) *
              (max 0 (1 / 2 * (u - theta + sv)) - u) +
              lambda * Real.log (1 + max 0 (1 / 2 * (u - theta + sv)) / theta))
            (1 / 2 * (max 0 (1 / 2 * (u - theta - sv)) - u) *
              (max 0 (1 / 2 * (u - theta - sv)) - u) +
              lambda * Real.log (1 + max 0 (1 / 2 * (u - theta - sv)) / theta)) k := by
        unfold arr3
        split_ifs
        · simp; ring
        · ring
        · ring
      rw [hy]
      have e0 : arr3 (1 / 2 * u * u)
            (1 / 2 * (max 0 (1 / 2 * (u - theta + sv)) - u) *
              (max 0 (1 / 2 * (u - theta + sv)) - u) +
              lambda * Real.log (1 + max 0 (1 / 2 * (u - theta + sv)) / theta))
            (1 / 2 * (max 0 (1 / 2 * (u - theta - sv)) - u) *
              (max 0 (1 / 2 * (u - theta - sv)) - u) +
              lambda * Real.log (1 + max 0 (1 / 2 * (u - theta - sv)) / theta)) 0 =
          1 / 2 * (0 - u) ^ 2 + lambda * Real.log (1 + 0 / theta) := by
        unfold arr3; simp; ring
      have e1 : arr3 (1 / 2 * u * u)
            (1 / 2 * (max 0 (1 / 2 * (u - theta + sv)) - u) *
              (max 0 (1 / 2 * (u - theta + sv)) - u) +
              lambda * Real.log (1 + max 0 (1 / 2 * (u - theta + sv)) / theta))
            (1 / 2 * (max 0 (1 / 2 * (u - theta - sv)) - u) *
              (max 0 (1 / 2 * (u - theta - sv)) - u) +
              lambda * Real.log (1 + max 0 (1 / 2 * (u - theta - sv)) / theta)) 1 =
          1 / 2 * (max 0 (1 / 2 * (u - theta + sv)) - u) ^ 2 +
            lambda * Real.log (1 + max 0 (1 / 2 * (u - theta + sv)) / theta) := by
        unfold arr3; simp; ring
      rw [e0] at h0
      rw [e1] at h1
      rcases hcand w hw with h | h
      · exact le_trans h0 h
      · exact le_trans h1 h

theorem proximalLSP_cell {α : Type} [LinearOrderedField α] (sqrt log narrow : α → α)
    (x d : Int → α) (n : Int) (lambda theta : α) (i : Int) (h0 : 0 ≤ i) (hn : i < n) :
    proximalLSP sqrt log narrow x d n lambda theta i =
      lspCoord sqrt log narrow (d i) lambda theta := by
  unfold proximalLSP
  rw [forLong_update (fun i _ => lspCoord sqrt log narrow (d i) lambda theta) 0 n x i,
    if_pos ⟨h0, hn⟩]

theorem lspCoord_min (d lambda theta : ℝ) (ht : 0 < theta) (y : ℝ) :
    1 / 2 * (lspCoord Real.sqrt Real.log id d lambda theta - d) ^ 2 +
        lambda * Real.log (1 + |lspCoord Real.sqrt Real.log id d lambda theta| / theta) ≤
      1 / 2 * (y - d) ^ 2 + lambda * Real.log (1 + |y| / theta) := by
  obtain ⟨t, ht0, hx, hmin⟩ := lspCoord_spec id d lambda theta ht
  rw [hx]
  exact restore_sign_min (fun w => lambda * Real.log (1 + w / theta)) d t ht0 hmin y

end LSP

section MagnitudeLemmas
variable {α : Type} [LinearOrderedField α]

theorem trunc_intCast [FloorRing α] (c : Int) : trunc (c : α) = c := by
  unfold trunc
  split_ifs
  · exact Int.floor_intCast c
  · exact Int.ceil_intCast c

/-! ### Magnitude and sign -/

theorem mcpPenalty_mono (lambda theta u t : α) (ht : 0 < theta) (hu : 0 ≤ u)
    (hut : u < t) : mcpPenalty lambda theta u ≤ mcpPenalty lambda theta t := by
  have ht0 : 0 ≤ t := le_trans hu (le_of_lt hut)
  have hne : theta ≠ 0 := ne_of_gt ht
  rcases le_or_lt t (theta * lambda) with h | h
  · rw [mcpPenalty_of_le lambda theta u hu (le_trans (le_of_lt hut) h),
      mcpPenalty_of_le lambda theta t ht0 h]
    have e : lambda * t - 1 / 2 * t ^ 2 / theta - (lambda * u - 1 / 2 * u ^ 2 / theta) =
        (t - u) * ((theta * lambda - t) + (theta * lambda - u)) / (2 * theta) := by
      field_simp; ring
    have : 0 ≤ (t - u) * ((theta * lambda - t) + (theta * lambda - u)) / (2 * theta) := by
      apply div_nonneg
      · apply mul_nonneg (le_of_lt (sub_pos.mpr hut)); linarith
      · linarith
    linarith
  · rw [mcpPenalty_of_ge lambda theta t ht ht0 (le_of_lt h)]
    rcases le_or_lt u (theta * lambda) with h' | h'
    · rw [mcpPenalty_of_le lambda theta u hu h']
      have e : 1 / 2 * theta * lambda ^ 2 - (lambda * u - 1 / 2 * u ^ 2 / theta) =
          (theta * lambda - u) ^ 2 / (2 * theta) := by
        field_simp; ring
      have : 0 ≤ (theta * lambda - u) ^ 2 / (2 * theta) := by positivity
      linarith
    · rw [mcpPenalty_of_ge lambda theta u ht hu (le_of_lt h')]

theorem mcpPenalty_nonneg (lambda theta x : α) (hl : 0 ≤ lambda) (ht : 0 < theta) :
    0 ≤ mcpPenalty lambda theta x := by
  rw [← mcpPenalty_abs]
  have hz : 0 ≤ theta * lambda := mul_nonneg (le_of_lt ht) hl
  have h0 : mcpPenalty lambda theta 0 = 0 := by
    rw [mcpPenalty_of_le lambda theta 0 (le_refl _) hz]; simp
  rcases eq_or_lt_of_le (abs_nonneg x) with h | h
  · rw [← h, h0]
  · rw [← h0]; exact mcpPenalty_mono lambda theta 0 |x| ht (le_refl _) h

theorem mcpPenalty_le (lambda theta x : α) (hl : 0 ≤ lambda) (ht : 0 < theta) :
    mcpPenalty lambda theta x ≤ lambda * |x| := by
  rw [← mcpPenalty_abs]
  rcases le_or_lt |x| (theta * lambda) with h | h
  · rw [mcpPenalty_of_le lambda theta |x| (abs_nonneg x) h]
    have : 0 ≤ 1 / 2 * |x| ^ 2 / theta := by positivity
    linarith
  · rw [mcpPenalty_of_ge lambda theta |x| ht (abs_nonneg x) (le_of_lt h)]
    have h1 := mul_le_mul_of_nonneg_left (le_of_lt h) hl
    have h2 := mul_nonneg hl (abs_nonneg x)
    have e : 1 / 2 * theta * lambda ^ 2 = 1 / 2 * (lambda * (theta * lambda)) := by ring
    linarith

theorem proximalMCP_cell_gt (x d : Int → α) (n : Int) (lambda theta : α) (h1 : theta > 1)
    (i : Int) (h0 : 0 ≤ i) (hn : i < n) :
    proximalMCP x d n lambda theta i = mcpCoordGt (theta * lambda) (d i) lambda theta := by
  unfold proximalMCP
  simp only [if_pos h1]
  rw [forLong_update (fun i _ => mcpCoordGt (theta * lambda) (d i) lambda theta) 0 n x i,
    if_pos ⟨h0, hn⟩]

/-- In the branch `theta > 1` with `lambda = 0` the stored value is `d` itself. -/
theorem mcpCoordGt_lambda_zero (d theta : α) :
    mcpCoordGt (theta * 0) d 0 theta = d := by
  have hu : 0 ≤ |d| := abs_nonneg d
  have ha : 0 ≤ max 0 (theta * (|d| - 0) / (theta - 1)) := le_max_left _ _
  simp only [mcpCoordGt, mcpSelect, mcpPick_eq, lit_zero, lit_one, mul_zero]
  rw [min_eq_left ha, max_eq_right hu]
  have hnot : ¬ (1 / 2 * (0 + |d| - 2 * |d|) * (0 - |d|) + 0 * (0 - 1 / 2 * 0 / theta) - 0 < 0) := by
    have h7 := sq_nonneg |d|
    have e : 1 / 2 * (0 + |d| - 2 * |d|) * (0 - |d|) + 0 * (0 - 1 / 2 * 0 / theta) - 0 =
        1 / 2 * |d| ^ 2 := by ring
    rw [e]; linarith
  rw [if_neg hnot]
  by_cases hd : d ≥ 0
  · rw [if_pos hd, abs_of_nonneg hd]
  · rw [if_neg hd, abs_of_neg (not_le.mp hd), neg_neg]

/-- In the branch `theta > 1`, when `|d| < theta*lambda` the selection keeps the clipped
stationary point `max(0, theta*(|d| - lambda)/(theta - 1))`. -/
theorem mcpCoordGt_small (d lambda theta : α) (h1 : 1 < theta)
    (hd : |d| < theta * lambda) :
    mcpCoordGt (theta * lambda) d lambda theta =
      (if d ≥ 0 then max 0 (theta * (|d| - lambda) / (theta - 1))
        else -max 0 (theta * (|d| - lambda) / (theta - 1))) := by
  have ht0 : 0 < theta := lt_trans zero_lt_one h1
  have hu : 0 ≤ |d| := abs_nonneg d
  have hk : 0 < (theta - 1) / theta := div_pos (by linarith) ht0
  have hale : theta * (|d| - lambda) / (theta - 1) ≤ |d| := by
    rw [div_le_iff₀ (by linarith)]
    linarith
  have hx1u : max 0 (theta * (|d| - lambda) / (theta - 1)) ≤ |d| := max_le hu hale
  have hx1z : max 0 (theta * (|d| - lambda) / (theta - 1)) < theta * lambda :=
    lt_of_le_of_lt hx1u hd
  have hdiff := mcp_inner_diff |d| lambda theta
    (max 0 (theta * (|d| - lambda) / (theta - 1))) (theta * lambda) ht0 (by linarith)
  have hge : theta * (|d| - lambda) / (theta - 1) ≤
      max 0 (theta * (|d| - lambda) / (theta - 1)) := le_max_right _ _
  simp only [mcpCoordGt, mcpSelect, mcpPick_eq, lit_zero, lit_one]
  rw [min_eq_right (le_of_lt hx1z), max_eq_left (le_of_lt hd)]
  generalize max 0 (theta * (|d| - lambda) / (theta - 1)) = x1 at hx1z hdiff hge ⊢
  generalize theta * (|d| - lambda) / (theta - 1) = a at hdiff hge
  have htest : 1 / 2 * (x1 + theta * lambda - 2 * |d|) * (x1 - theta * lambda) +
      x1 * (lambda - 1 / 2 * x1 / theta) - 1 / 2 * (theta * lambda) * lambda < 0 := by
    rw [mcp_test_eq |d| x1 (theta * lambda) lambda theta ht0]
    have hb : 0 < 1 / 2 * (theta * lambda - x1) ^ 2 + (theta * lambda - x1) * (x1 - a) := by
      have h6 : 0 < theta * lambda - x1 := sub_pos.mpr hx1z
      have h7 : 0 < (theta * lambda - x1) ^ 2 := by positivity
      have h8 := mul_nonneg (le_of_lt h6) (sub_nonneg.mpr hge)
      linarith
    have hpos := mul_pos hk hb
    have e : lambda * (theta * lambda) - 1 / 2 * (theta * lambda) ^ 2 / theta =
        1 / 2 * theta * lambda ^ 2 := by
      have : theta ≠ 0 := ne_of_gt ht0
      field_simp; ring
    linarith
  rw [if_pos htest]

end MagnitudeLemmas

section Limits

open Filter

/-- A quantity whose squared distance to `c` is at most `C * lambda` tends to `c` as
`lambda` tends to `0` through non-negative values. -/
theorem tendsto_of_sq_le (X : ℝ → ℝ) (c C : ℝ)
    (h : ∀ lambda, 0 ≤ lambda → (X lambda - c) ^ 2 ≤ C * lambda) :
    Tendsto X (nhdsWithin 0 (Set.Ici 0)) (nhds c) := by
  have h1 : Tendsto (fun l : ℝ => C * l) (nhdsWithin 0 (Set.Ici 0)) (nhds 0) := by
    have : Tendsto (fun l : ℝ => C * l) (nhds 0) (nhds (C * 0)) :=
      (continuous_const.mul continuous_id).tendsto 0
    rw [mul_zero] at this
    exact tendsto_nhdsWithin_of_tendsto_nhds this
  have h2 : Tendsto (fun l : ℝ => (X l - c) ^ 2) (nhdsWithin 0 (Set.Ici 0)) (nhds 0) :=
    squeeze_zero' (Eventually.of_forall fun _ => sq_nonneg _)
      (eventually_nhdsWithin_of_forall fun l hl => h l hl) h1
  have h3 : Tendsto (fun l : ℝ => Real.sqrt ((X l - c) ^ 2)) (nhdsWithin 0 (Set.Ici 0))
      (nhds (Real.sqrt 0)) := (Real.continuous_sqrt.tendsto 0).comp h2
  rw [Real.sqrt_zero] at h3
  rw [tendsto_iff_dist_tendsto_zero]
  refine h3.congr (fun l => ?_)
  rw [Real.sqrt_sq_eq_abs, Real.dist_eq]

theorem capL1_limit (x d : Int → ℝ) (n : Int) (theta : ℝ) (ht : 0 < theta) (i : Int)
    (h0 : 0 ≤ i) (hn : i < n) :
    Tendsto (fun lambda => proximalCapL1 x d n lambda theta i) (nhdsWithin 0 (Set.Ici 0))
      (nhds (d i)) := by
  apply tendsto_of_sq_le _ (d i) (2 * min |d i| theta)
  intro lambda hl
  rw [proximalCapL1_cell x d n lambda theta i h0 hn]
  have h1 := capL1Coord_min (d i) lambda theta ht (d i)
  have h2 : 0 ≤ lambda * min |capL1Coord (d i) lambda theta| theta :=
    mul_nonneg hl (le_min (abs_nonneg _) (le_of_lt ht))
  have e : 1 / 2 * (d i - d i) ^ 2 = 0 := by ring
  linarith

theorem lsp_limit (x d : Int → ℝ) (n : Int) (theta : ℝ) (ht : 0 < theta) (i : Int)
    (h0 : 0 ≤ i) (hn : i < n) :
    Tendsto (fun lambda => proximalLSP Real.sqrt Real.log id x d n lambda theta i)
      (nhdsWithin 0 (Set.Ici 0)) (nhds (d i)) := by
  apply tendsto_of_sq_le _ (d i) (2 * Real.log (1 + |d i| / theta))
  intro lambda hl
  rw [proximalLSP_cell Real.sqrt Real.log id x d n lambda theta i h0 hn]
  have h1 := lspCoord_min (d i) lambda theta ht (d i)
  have h2 : 0 ≤ lambda * Real.log
      (1 + |lspCoord Real.sqrt Real.log id (d i) lambda theta| / theta) := by
    apply mul_nonneg hl
    apply Real.log_nonneg
    have := div_nonneg (abs_nonneg (lspCoord Real.sqrt Real.log id (d i) lambda theta))
      (le_of_lt ht)
    linarith
  have e : 1 / 2 * (d i - d i) ^ 2 = 0 := by ring
  linarith

theorem mcp_limit (x d : Int → ℝ) (n : Int) (theta : ℝ) (ht : 0 < theta) (i : Int)
    (h0 : 0 ≤ i) (hn : i < n) :
    Tendsto (fun lambda => proximalMCP x d n lambda theta i) (nhdsWithin 0 (Set.Ici 0))
      (nhds (d i)) := by
  apply tendsto_of_sq_le _ (d i) (2 * |d i|)
  intro lambda hl
  have h1 := proximalMCP_cell_min x d n lambda theta hl ht i h0 hn (d i)
  have h2 := mcpPenalty_nonneg lambda theta (proximalMCP x d n lambda theta i) hl ht
  have h3 := mcpPenalty_le lambda theta (d i) hl ht
  have e : 1 / 2 * (d i - d i) ^ 2 = 0 := by ring
  linarith

/-- The clipped stationary point of the branch `theta > 1` tends to the soft threshold. -/
theorem mcp_stationary_limit (u lambda : ℝ) :
    Tendsto (fun theta : ℝ => max 0 (theta * (u - lambda) / (theta - 1))) atTop
      (nhds (max 0 (u - lambda))) := by
  have h1 : Tendsto (fun theta : ℝ => theta - 1) atTop atTop := by
    simpa [sub_eq_add_neg] using tendsto_atTop_add_const_right atTop (-1 : ℝ) tendsto_id
  have h2 : Tendsto (fun theta : ℝ => (theta - 1)⁻¹) atTop (nhds 0) :=
    tendsto_inv_atTop_zero.comp h1
  have h3 : Tendsto (fun theta : ℝ => (u - lambda) * (1 + (theta - 1)⁻¹)) atTop
      (nhds ((u - lambda) * (1 + 0))) := (tendsto_const_nhds.add h2).const_mul (u - lambda)
  rw [add_zero, mul_one] at h3
  have h4 : Tendsto (fun theta : ℝ => theta * (u - lambda) / (theta - 1)) atTop
      (nhds (u - lambda)) := by
    refine h3.congr' ?_
    filter_upwards [eventually_gt_atTop (1 : ℝ)] with theta hth
    have : theta - 1 ≠ 0 := by linarith
    field_simp
    ring
  exact tendsto_const_nhds.max h4

theorem mcp_soft_threshold_limit (x d : Int → ℝ) (n : Int) (lambda : ℝ) (hl : 0 ≤ lambda) (i : Int)
    (h0 : 0 ≤ i) (hn : i < n) :
    Tendsto (fun theta => proximalMCP x d n lambda theta i) atTop
      (nhds (Real.sign (d i) * max (|d i| - lambda) 0)) := by
  rcases eq_or_lt_of_le hl with hz | hpos
  · -- `lambda = 0`: the value is `d i` for every `theta > 1`
    subst hz
    have htarget : Real.sign (d i) * max (|d i| - 0) 0 = d i := by
      rw [sub_zero, max_eq_left (abs_nonneg _)]
      rcases lt_trichotomy (d i) 0 with h | h | h
      · rw [Real.sign_of_neg h, abs_of_neg h]; ring
      · rw [h, Real.sign_zero, abs_zero, mul_zero]
      · rw [Real.sign_of_pos h, abs_of_pos h, one_mul]
    rw [htarget]
    refine tendsto_const_nhds.congr' ?_
    filter_upwards [eventually_gt_atTop (1 : ℝ)] with theta hth
    rw [proximalMCP_cell_gt x d n 0 theta hth i h0 hn, mcpCoordGt_lambda_zero]
  · have hev : ∀ᶠ theta in atTop, proximalMCP x d n lambda theta i =
        (if d i ≥ 0 then max 0 (theta * (|d i| - lambda) / (theta - 1))
          else -max 0 (theta * (|d i| - lambda) / (theta - 1))) := by
      filter_upwards [eventually_gt_atTop (1 : ℝ), eventually_gt_atTop (|d i| / lambda)]
        with theta hth1 hth2
      rw [proximalMCP_cell_gt x d n lambda theta hth1 i h0 hn]
      exact mcpCoordGt_small (d i) lambda theta hth1 ((div_lt_iff₀ hpos).mp hth2)
    have hlim := mcp_stationary_limit |d i| lambda
    by_cases hd : d i ≥ 0
    · have htarget : Real.sign (d i) * max (|d i| - lambda) 0 = max 0 (|d i| - lambda) := by
        rcases eq_or_lt_of_le hd with h | h
        · rw [← h, Real.sign_zero, abs_zero, zero_mul, zero_sub,
            max_eq_left (neg_nonpos.mpr hl)]
        · rw [Real.sign_of_pos h, one_mul, max_comm]
      rw [htarget]
      refine hlim.congr' ?_
      filter_upwards [hev] with theta hth
      rw [hth, if_pos hd]
    · have htarget : Real.sign (d i) * max (|d i| - lambda) 0 = -max 0 (|d i| - lambda) := by
        rw [Real.sign_of_neg (not_le.mp hd), max_comm]; ring
      rw [htarget]
      refine hlim.neg.congr' ?_
      filter_upwards [hev] with theta hth
      rw [hth, if_neg hd]

end Limits

/-! ### Identity, symmetry and data flow -/

section Symmetry
variable {α : Type} [LinearOrderedField α]

/-- The value stored by `proximalMCP` in a cell, by branch. -/
theorem proximalMCP_cell_branches (x d : Int → α) (n : Int) (lambda theta : α) (i : Int)
    (h0 : 0 ≤ i) (hn : i < n) :
    proximalMCP x d n lambda theta i =
      if theta > 1 then mcpCoordGt (theta * lambda) (d i) lambda theta
      else if theta < 1 then mcpCoordLt (theta * lambda) (d i) lambda theta
      else mcpCoordEq (theta * lambda) (d i) lambda theta := by
  unfold proximalMCP
  by_cases h1 : theta > 1
  · simp only [if_pos h1]
    rw [forLong_update (fun i _ => mcpCoordGt (theta * lambda) (d i) lambda theta) 0 n x i,
      if_pos ⟨h0, hn⟩]
  · by_cases h2 : theta < 1
    · simp only [if_neg h1, if_pos h2]
      rw [forLong_update (fun i _ => mcpCoordLt (theta * lambda) (d i) lambda theta) 0 n x i,
        if_pos ⟨h0, hn⟩]
    · simp only [if_neg h1, if_neg h2]
      rw [forLong_update (fun i _ => mcpCoordEq (theta * lambda) (d i) lambda theta) 0 n x i,
        if_pos ⟨h0, hn⟩]

theorem lspCoord_eq_restore (sqrt log narrow : α → α) (d lambda theta : α) :
    lspCoord sqrt log narrow d lambda theta =
      if narrow d ≥ 0 then lspMagnitude sqrt log |narrow d| lambda theta
      else -lspMagnitude sqrt log |narrow d| lambda theta := by
  unfold lspCoord lspMagnitude
  by_cases hv : (|narrow d| - theta) * (|narrow d| - theta) -
      4.0 * (lambda - |narrow d| * theta) < 0
  · simp only [if_pos hv]; simp
  · simp only [if_neg hv]

theorem arr3_nonneg (a0 a1 a2 : α) (h0 : 0 ≤ a0) (h1 : 0 ≤ a1) (h2 : 0 ≤ a2) (k : Int) :
    0 ≤ arr3 a0 a1 a2 k := by
  unfold arr3
  split_ifs
  · exact h0
  · exact h1
  · exact h2

theorem lspMagnitude_nonneg (sqrt log : α → α) (u lambda theta : α) :
    0 ≤ lspMagnitude sqrt log u lambda theta := by
  unfold lspMagnitude
  simp only []
  split_ifs
  · exact le_refl _
  · apply arr3_nonneg
    · rw [lit_zero]
    · exact le_trans (by rw [lit_zero]) (le_max_left _ _)
    · exact le_trans (by rw [lit_zero]) (le_max_left _ _)

theorem mymin_three {β : Type} [LinearOrder β] (a b c : β) :
    mymin (arr3 a b c) 3 = if b < a then (if c < b then 2 else 1) else (if c < a then 2 else 0) := by
  have h : ((3 : Int) - 1).toNat = 2 := by decide
  simp only [mymin, forLong, h, forLongAux, myminStep, arr3]
  norm_num
  split_ifs <;> simp_all

theorem mcpSelectChecked_eq (di u x1 x2 z lambda theta : α) (ht : theta ≠ 0) :
    mcpSelectChecked di u x1 x2 z lambda theta = some (mcpSelect di u x1 x2 z lambda theta) := by
  simp only [mcpSelectChecked, divChecked, if_neg ht, Option.some_bind, mcpSelect, mcpPick]

theorem mcpCoordChecked_eq (x d : Int → α) (n : Int) (lambda theta : α) (ht : 0 < theta)
    (i : Int) (h0 : 0 ≤ i) (hn : i < n) :
    mcpCoordChecked (d i) lambda theta = some (proximalMCP x d n lambda theta i) := by
  have hne : theta ≠ 0 := ne_of_gt ht
  rw [proximalMCP_cell_branches x d n lambda theta i h0 hn]
  unfold mcpCoordChecked
  by_cases h1 : theta > 1
  · have hd : theta - 1.0 ≠ 0 := by rw [lit_one]; exact ne_of_gt (sub_pos.mpr h1)
    simp only [if_pos h1, mcpCoordGtChecked, divChecked, if_neg hd, Option.some_bind,
      mcpSelectChecked_eq _ _ _ _ _ _ _ hne, mcpCoordGt]
  · by_cases h2 : theta < 1
    · have hd : theta - 1 ≠ 0 := ne_of_lt (sub_neg.mpr h2)
      simp only [if_neg h1, if_pos h2, mcpCoordLtChecked, divChecked, if_neg hd,
        Option.some_bind, mcpSelectChecked_eq _ _ _ _ _ _ _ hne, mcpCoordLt]
    · simp only [if_neg h1, if_neg h2, mcpCoordEqChecked,
        mcpSelectChecked_eq _ _ _ _ _ _ _ hne, mcpCoordEq]

theorem mexFunction_cases [FloorRing α] (sqrt log narrow : α → α) (d : Int → α)
    (nArg lambda theta : α) (type : Int) :
    mexFunction sqrt log narrow d nArg lambda theta (type : α) =
      if type = 1 then proximalCapL1 (fun _ => 0) d (trunc nArg) lambda theta
      else if type = 2 then proximalLSP sqrt log narrow (fun _ => 0) d (trunc nArg) lambda theta
      else if type = 3 then proximalTNN (fun _ => 0) d (trunc nArg) lambda theta
      else if type = 4 then proximalMCP (fun _ => 0) d (trunc nArg) lambda theta
      else proximalCapL1 (fun _ => 0) d (trunc nArg) lambda theta := by
  unfold mexFunction
  simp only [trunc_intCast]
  split <;> simp_all

/-- The cells `0 ≤ i < n` of the output of `mexFunction` depend on `d` only through the
cells `0 ≤ j < n` of `d`. -/
theorem mexFunction_congr [FloorRing α] (sqrt log narrow : α → α) (d1 d2 : Int → α)
    (nArg lambda theta : α) (type : Int)
    (hd : ∀ j, 0 ≤ j → j < trunc nArg → d1 j = d2 j) (i : Int) (h0 : 0 ≤ i)
    (hn : i < trunc nArg) :
    mexFunction sqrt log narrow d1 nArg lambda theta (type : α) i =
      mexFunction sqrt log narrow d2 nArg lambda theta (type : α) i := by
  have hcap : proximalCapL1 (fun _ => 0) d1 (trunc nArg) lambda theta i =
      proximalCapL1 (fun _ => 0) d2 (trunc nArg) lambda theta i := by
    rw [proximalCapL1_cell _ d1 _ _ _ i h0 hn, proximalCapL1_cell _ d2 _ _ _ i h0 hn,
      hd i h0 hn]
  rw [mexFunction_cases, mexFunction_cases]
  split_ifs
  · exact hcap
  · rw [proximalLSP_cell _ _ _ _ d1 _ _ _ i h0 hn, proximalLSP_cell _ _ _ _ d2 _ _ _ i h0 hn,
      hd i h0 hn]
  · rfl
  · rw [proximalMCP_cell_branches _ d1 _ _ _ i h0 hn,
      proximalMCP_cell_branches _ d2 _ _ _ i h0 hn, hd i h0 hn]
  · exact hcap

end Symmetry

section SymmetryLSP

/-- A double of magnitude `10^-50` and negative sign, with `lambda = -2` and `theta = 1`:
the narrowed value is `0`, the selected magnitude is `1` and the stored value is `+1`. -/
theorem lspCoord_underflow_value :
    lspMagnitude Real.sqrt Real.log |underflowToZero (-(1 / 10 ^ 50) : ℝ)| (-2) 1 = 1 ∧
    lspCoord Real.sqrt Real.log underflowToZero (-(1 / 10 ^ 50) : ℝ) (-2) 1 = 1 := by
  have hn : underflowToZero (-(1 / 10 ^ 50) : ℝ) = 0 := by
    unfold underflowToZero
    rw [if_pos]
    rw [abs_neg, abs_of_pos (by positivity)]
    norm_num
  have hs : Real.sqrt 9 = 3 := by
    rw [show (9 : ℝ) = 3 ^ 2 by norm_num]
    exact Real.sqrt_sq (by norm_num)
  have hlog : (1 : ℝ) / 4 < Real.log 2 := by
    have := Real.log_two_gt_d9
    linarith
  have hm : lspMagnitude Real.sqrt Real.log 0 (-2) 1 = 1 := by
    unfold lspMagnitude
    simp only [lit_half, lit_zero, lit_one, lit_four]
    have hv : ((0 : ℝ) - 1) * (0 - 1) - 4 * (-2 - 0 * 1) = 9 := by norm_num
    rw [hv, if_neg (by norm_num), hs, mymin_three]
    have e1 : max (0 : ℝ) (1 / 2 * (0 - 1 + 3)) = 1 := by norm_num
    have e2 : max (0 : ℝ) (1 / 2 * (0 - 1 - 3)) = 0 := by norm_num
    rw [e1, e2]
    have e3 : (1 : ℝ) + 1 / 1 = 2 := by norm_num
    have e4 : (1 : ℝ) + 0 / 1 = 1 := by norm_num
    rw [e3, e4, Real.log_one]
    have h1 : 1 / 2 * ((1 : ℝ) - 0) * (1 - 0) + -2 * Real.log 2 < 1 / 2 * 0 * 0 := by
      linarith
    have h2 : ¬ (1 / 2 * ((0 : ℝ) - 0) * (0 - 0) + -2 * 0 <
        1 / 2 * ((1 : ℝ) - 0) * (1 - 0) + -2 * Real.log 2) := by
      linarith
    rw [if_pos h1, if_neg h2]
    simp [arr3]
  rw [lspCoord_eq_restore, hn, abs_zero, hm]
  simp

end SymmetryLSP

/-! ### The selection tests as objective comparisons -/

section Selection
variable {α : Type} [LinearOrderedField α]

/-- The tested quantity of `proximalCapL1` is the difference of the objective at the two
candidates, for every `u`, `lambda` and `theta`. -/
theorem capL1_test_eq (u lambda theta : α) :
    0.5 * (max u theta + min theta (max 0 (u - lambda)) - 2 * u) *
        (max u theta - min theta (max 0 (u - lambda))) +
        lambda * (theta - min theta (max 0 (u - lambda))) =
      capL1Objective u lambda theta (max u theta) -
        capL1Objective u lambda theta (min theta (max 0 (u - lambda))) := by
  unfold capL1Objective
  rw [min_eq_right (le_max_right u theta),
    min_eq_left (min_le_left theta (max 0 (u - lambda))), lit_half]
  ring

theorem capL1Coord_objective (d lambda theta : α) :
    capL1Coord d lambda theta =
      if d ≥ 0 then
        (if capL1Objective |d| lambda theta (max |d| theta) <
            capL1Objective |d| lambda theta (min theta (max 0 (|d| - lambda)))
          then max |d| theta else min theta (max 0 (|d| - lambda)))
      else
        -(if capL1Objective |d| lambda theta (max |d| theta) <
            capL1Objective |d| lambda theta (min theta (max 0 (|d| - lambda)))
          then max |d| theta else min theta (max 0 (|d| - lambda))) := by
  have h := capL1_test_eq |d| lambda theta
  simp only [capL1Coord, lit_zero] at h ⊢
  rw [h]
  simp only [sub_neg]

/-- The tested quantity of `proximalMCP` is the difference of the objective at the two
candidates whenever `x1 ≤ theta*lambda ≤ x2`. -/
theorem mcpObjective_test (u lambda theta x1 x2 : α) (ht : 0 < theta)
    (h1 : x1 ≤ theta * lambda) (h2 : theta * lambda ≤ x2) :
    0.5 * (x1 + x2 - 2 * u) * (x1 - x2) + x1 * (lambda - 0.5 * x1 / theta)
        - 0.5 * (theta * lambda) * lambda =
      mcpObjective u lambda theta x1 - mcpObjective u lambda theta x2 := by
  have hne : theta ≠ 0 := ne_of_gt ht
  unfold mcpObjective
  rw [if_pos h1, lit_half]
  by_cases hx : x2 ≤ theta * lambda
  · rw [if_pos hx]
    have e : x2 = theta * lambda := le_antisymm hx h2
    rw [e]
    field_simp; ring
  · rw [if_neg hx]
    field_simp; ring

theorem mcpPick_objective (u lambda theta x1 x2 : α) (ht : 0 < theta)
    (h1 : x1 ≤ theta * lambda) (h2 : theta * lambda ≤ x2) :
    mcpPick u x1 x2 (theta * lambda) lambda theta =
      if mcpObjective u lambda theta x1 < mcpObjective u lambda theta x2 then x1 else x2 := by
  unfold mcpPick
  rw [mcpObjective_test u lambda theta x1 x2 ht h1 h2]
  simp only [sub_neg]

/-- The first candidate of `proximalMCP`, by branch. -/
theorem mcp_x1_bounds (u lambda theta : α) (hl : 0 ≤ lambda) (ht : 0 < theta) :
    0 ≤ (if theta > 1 then min (theta * lambda) (max 0 (theta * (u - lambda) / (theta - 1)))
        else if theta < 1 then
          (if |theta * (u - lambda) / (theta - 1)| >
            |theta * (u - lambda) / (theta - 1) - theta * lambda| then 0 else theta * lambda)
        else (if lambda > u then 0 else theta * lambda)) ∧
      (if theta > 1 then min (theta * lambda) (max 0 (theta * (u - lambda) / (theta - 1)))
        else if theta < 1 then
          (if |theta * (u - lambda) / (theta - 1)| >
            |theta * (u - lambda) / (theta - 1) - theta * lambda| then 0 else theta * lambda)
        else (if lambda > u then 0 else theta * lambda)) ≤ theta * lambda := by
  have hz : 0 ≤ theta * lambda := mul_nonneg (le_of_lt ht) hl
  split_ifs
  · exact ⟨le_min hz (le_max_left _ _), min_le_left _ _⟩
  · exact ⟨le_refl _, hz⟩
  · exact ⟨hz, le_refl _⟩
  · exact ⟨le_refl _, hz⟩
  · exact ⟨hz, le_refl _⟩

theorem proximalMCP_cell_pick (x d : Int → α) (n : Int) (lambda theta : α) (i : Int)
    (h0 : 0 ≤ i) (hn : i < n) :
    proximalMCP x d n lambda theta i =
      if d i ≥ 0 then
        mcpPick |d i|
          (if theta > 1 then
            min (theta * lambda) (max 0 (theta * (|d i| - lambda) / (theta - 1)))
          else if theta < 1 then
            (if |theta * (|d i| - lambda) / (theta - 1)| >
              |theta * (|d i| - lambda) / (theta - 1) - theta * lambda| then 0
              else theta * lambda)
          else (if lambda > |d i| then 0 else theta * lambda))
          (max (theta * lambda) |d i|) (theta * lambda) lambda theta
      else
        -mcpPick |d i|
          (if theta > 1 then
            min (theta * lambda) (max 0 (theta * (|d i| - lambda) / (theta - 1)))
          else if theta < 1 then
            (if |theta * (|d i| - lambda) / (theta - 1)| >
              |theta * (|d i| - lambda) / (theta - 1) - theta * lambda| then 0
              else theta * lambda)
          else (if lambda > |d i| then 0 else theta * lambda))
          (max (theta * lambda) |d i|) (theta * lambda) lambda theta := by
  rw [proximalMCP_cell_branches x d n lambda theta i h0 hn]
  by_cases h1 : theta > 1
  · simp only [if_pos h1, mcpCoordGt, mcpSelect, lit_zero, lit_one]
  · by_cases h2 : theta < 1
    · simp only [if_neg h1, if_pos h2, mcpCoordLt, mcpSelect, lit_zero]
    · simp only [if_neg h1, if_neg h2, mcpCoordEq, mcpSelect, lit_zero]

end Selection

/-! ### Double-precision arithmetic -/

section Rounding

end Rounding

section RoundedLemmas
variable {α : Type} [LinearOrderedField α]

/-- Without rounding the rounded kernels are the exact ones. -/
theorem proximalCapL1R_id (x d : Int → α) (n : Int) (lambda theta : α) :
    proximalCapL1R id x d n lambda theta = proximalCapL1 x d n lambda theta := rfl

theorem proximalMCPR_id (x d : Int → α) (n : Int) (lambda theta : α) :
    proximalMCPR id x d n lambda theta = proximalMCP x d n lambda theta := rfl

end RoundedLemmas

section DoubleFacts

end DoubleFacts

/-! ## Claims -/

/-- C1: `proximalCapL1` stores a global minimiser in every cell it writes: for `theta > 0`
(and `lambda ≥ 0`), every index `0 ≤ i < n` and every `y`,
`0.5*(x_i - d_i)^2 + lambda*min(|x_i|, theta) ≤ 0.5*(y - d_i)^2 + lambda*min(|y|, theta)`. -/
theorem proximalCapL1_global_minimizer {α : Type} [LinearOrderedField α] (x d : Int → α)
    (n : Int) (lambda theta : α) (_hl : 0 ≤ lambda) (ht : 0 < theta) (i : Int) (h0 : 0 ≤ i)
    (hn : i < n) (y : α) :
    0.5 * (proximalCapL1 x d n lambda theta i - d i) ^ 2 +
        lambda * min |proximalCapL1 x d n lambda theta i| theta ≤
      0.5 * (y - d i) ^ 2 + lambda * min |y| theta := by
  rw [proximalCapL1_cell x d n lambda theta i h0 hn, lit_half]
  exact capL1Coord_min (d i) lambda theta ht y

/-- C1, witness: the scenario `d = [5.0]`, `lambda = 1.0`, `theta = 3.0`, compared with
`y = 3`. -/
theorem proximalCapL1_global_minimizer_witness :
    (0 : ℚ) ≤ 1 ∧ (0 : ℚ) < 3 ∧
      0.5 * (proximalCapL1 (fun _ => 0) (fun _ => (5 : ℚ)) 1 1 3 0 - 5) ^ 2 +
          1 * min |proximalCapL1 (fun _ => 0) (fun _ => (5 : ℚ)) 1 1 3 0| 3 ≤
        0.5 * ((3 : ℚ) - 5) ^ 2 + 1 * min |(3 : ℚ)| 3 :=
  ⟨by simp, by simp,
    proximalCapL1_global_minimizer (fun _ => 0) (fun _ => (5 : ℚ)) 1 1 3 (by simp)
      (by simp) 0 (by simp) (by simp) 3⟩

/-- C2: `proximalMCP` stores a global minimiser in every cell it writes, for `theta > 1`,
`theta < 1` and `theta = 1` alike: for `lambda ≥ 0`, `theta > 0`, every index `0 ≤ i < n` and
every `y`, `0.5*(x_i - d_i)^2 + r(x_i) ≤ 0.5*(y - d_i)^2 + r(y)` with `r` the MCP regulariser
(`lambda*|t| - t^2/(2*theta)` if `|t| ≤ theta*lambda`, `0.5*theta*lambda^2` otherwise). -/
theorem proximalMCP_global_minimizer {α : Type} [LinearOrderedField α] (x d : Int → α)
    (n : Int) (lambda theta : α) (hl : 0 ≤ lambda) (ht : 0 < theta) (i : Int) (h0 : 0 ≤ i)
    (hn : i < n) (y : α) :
    0.5 * (proximalMCP x d n lambda theta i - d i) ^ 2 +
        mcpPenalty lambda theta (proximalMCP x d n lambda theta i) ≤
      0.5 * (y - d i) ^ 2 + mcpPenalty lambda theta y := by
  rw [lit_half]
  exact proximalMCP_cell_min x d n lambda theta hl ht i h0 hn y

/-- C2, witness: the scenario `theta = 2.0`, `lambda = 1.0`, `d = [10.0]`, compared with
`y = 2`. -/
theorem proximalMCP_global_minimizer_witness :
    (0 : ℚ) ≤ 1 ∧ (0 : ℚ) < 2 ∧
      0.5 * (proximalMCP (fun _ => 0) (fun _ => (10 : ℚ)) 1 1 2 0 - 10) ^ 2 +
          mcpPenalty 1 2 (proximalMCP (fun _ => 0) (fun _ => (10 : ℚ)) 1 1 2 0) ≤
        0.5 * ((2 : ℚ) - 10) ^ 2 + mcpPenalty 1 2 (2 : ℚ) :=
  ⟨by simp, by simp,
    proximalMCP_global_minimizer (fun _ => 0) (fun _ => (10 : ℚ)) 1 1 2 (by simp)
      (by simp) 0 (by simp) (by simp) 2⟩

/-- C3: `proximalLSP`, with `sqrt` and `log` the real functions and the single-precision
narrowing taken as the identity, stores a global minimiser in every cell it writes: for
`lambda ≥ 0`, `theta > 0`, every index `0 ≤ i < n` and every real `y`,
`0.5*(x_i - d_i)^2 + lambda*log(1 + |x_i|/theta) ≤ 0.5*(y - d_i)^2 + lambda*log(1 + |y|/theta)`. -/
theorem proximalLSP_global_minimizer (x d : Int → ℝ) (n : Int) (lambda theta : ℝ)
    (_hl : 0 ≤ lambda) (ht : 0 < theta) (i : Int) (h0 : 0 ≤ i) (hn : i < n) (y : ℝ) :
    0.5 * (proximalLSP Real.sqrt Real.log id x d n lambda theta i - d i) ^ 2 +
        lambda * Real.log (1 + |proximalLSP Real.sqrt Real.log id x d n lambda theta i| / theta) ≤
      0.5 * (y - d i) ^ 2 + lambda * Real.log (1 + |y| / theta) := by
  rw [proximalLSP_cell Real.sqrt Real.log id x d n lambda theta i h0 hn, lit_half]
  exact lspCoord_min (d i) lambda theta ht y

/-- C3, witness: `d = [2.0]`, `lambda = 1.0`, `theta = 1.0`, compared with `y = 0`. -/
theorem proximalLSP_global_minimizer_witness :
    (0 : ℝ) ≤ 1 ∧ (0 : ℝ) < 1 ∧
      0.5 * (proximalLSP Real.sqrt Real.log id (fun _ => 0) (fun _ => (2 : ℝ)) 1 1 1 0 - 2) ^ 2 +
          1 * Real.log (1 +
            |proximalLSP Real.sqrt Real.log id (fun _ => 0) (fun _ => (2 : ℝ)) 1 1 1 0| / 1) ≤
        0.5 * ((0 : ℝ) - 2) ^ 2 + 1 * Real.log (1 + |(0 : ℝ)| / 1) :=
  ⟨by simp, by simp,
    proximalLSP_global_minimizer (fun _ => 0) (fun _ => (2 : ℝ)) 1 1 1 (by simp)
      (by simp) 0 (by simp) (by simp) 0⟩

/-- C4: for an array `x` of length `n ≥ 1`, `mymin x n` is an index `k` with `0 ≤ k < n`,
`x[k] ≤ x[j]` for every `j < n`, and `x[j] > x[k]` for every `j < k`: the first index of the
minimum. -/
theorem mymin_first_index_of_minimum {α : Type} [LinearOrder α] (x : Int → α) (n : Int)
    (hn : 1 ≤ n) :
    0 ≤ mymin x n ∧ mymin x n < n ∧ (∀ j, 0 ≤ j → j < n → x (mymin x n) ≤ x j) ∧
      (∀ j, 0 ≤ j → j < mymin x n → x j > x (mymin x n)) := by
  have h := mymin_loop_spec x n hn
  exact ⟨h.2.1, h.2.2.1, h.2.2.2.1, h.2.2.2.2⟩

/-- C4, witness: on `[2.0, 1.0, 1.0]` the theorem applies and `mymin` returns index `1`. -/
theorem mymin_first_index_of_minimum_witness :
    mymin (arr3 (2 : ℚ) 1 1) 3 = 1 ∧
      (0 ≤ mymin (arr3 (2 : ℚ) 1 1) 3 ∧ mymin (arr3 (2 : ℚ) 1 1) 3 < 3 ∧
        (∀ j, 0 ≤ j → j < 3 → arr3 (2 : ℚ) 1 1 (mymin (arr3 (2 : ℚ) 1 1) 3) ≤ arr3 (2 : ℚ) 1 1 j) ∧
        (∀ j, 0 ≤ j → j < mymin (arr3 (2 : ℚ) 1 1) 3 →
          arr3 (2 : ℚ) 1 1 j > arr3 (2 : ℚ) 1 1 (mymin (arr3 (2 : ℚ) 1 1) 3))) :=
  ⟨by decide, mymin_first_index_of_minimum (arr3 (2 : ℚ) 1 1) 3 (by decide)⟩

/-- C8: the dispatcher runs exactly one kernel on the fresh zero buffer, chosen by the type
code: `1` gives `proximalCapL1`, `2` `proximalLSP`, `3` `proximalTNN`, `4` `proximalMCP`, and
every other integer gives `proximalCapL1`, for the same `(d, n, lambda, theta)`. -/
theorem mexFunction_dispatch {α : Type} [LinearOrderedField α] [FloorRing α]
    (sqrt log narrow : α → α) (d : Int → α) (nArg lambda theta : α) (type : Int) :
    mexFunction sqrt log narrow d nArg lambda theta (type : α) =
      if type = 1 then proximalCapL1 (fun _ => 0) d (trunc nArg) lambda theta
      else if type = 2 then proximalLSP sqrt log narrow (fun _ => 0) d (trunc nArg) lambda theta
      else if type = 3 then proximalTNN (fun _ => 0) d (trunc nArg) lambda theta
      else if type = 4 then proximalMCP (fun _ => 0) d (trunc nArg) lambda theta
      else proximalCapL1 (fun _ => 0) d (trunc nArg) lambda theta := by
  unfold mexFunction
  simp only [trunc_intCast]
  split <;> simp_all

/-- C9: zero-regularisation limit. For fixed `d_i` and fixed `theta > 0`, the cell written
by each of `proximalCapL1`, `proximalLSP` (narrowing the identity) and `proximalMCP` tends to
`d_i` as `lambda` tends to `0` through non-negative values. -/
theorem zero_regularization_limit (x d : Int → ℝ) (n : Int) (theta : ℝ) (ht : 0 < theta)
    (i : Int) (h0 : 0 ≤ i) (hn : i < n) :
    Filter.Tendsto (fun lambda => proximalCapL1 x d n lambda theta i)
      (nhdsWithin 0 (Set.Ici 0)) (nhds (d i)) ∧
    Filter.Tendsto (fun lambda => proximalLSP Real.sqrt Real.log id x d n lambda theta i)
      (nhdsWithin 0 (Set.Ici 0)) (nhds (d i)) ∧
    Filter.Tendsto (fun lambda => proximalMCP x d n lambda theta i)
      (nhdsWithin 0 (Set.Ici 0)) (nhds (d i)) :=
  ⟨capL1_limit x d n theta ht i h0 hn, lsp_limit x d n theta ht i h0 hn,
    mcp_limit x d n theta ht i h0 hn⟩

/-- C9, witness: `d = [2.0]`, `theta = 3.0`. -/
theorem zero_regularization_limit_witness :
    (0 : ℝ) < 3 ∧
    (Filter.Tendsto (fun lambda => proximalCapL1 (fun _ => 0) (fun _ => (2 : ℝ)) 1 lambda 3 0)
      (nhdsWithin 0 (Set.Ici 0)) (nhds 2) ∧
    Filter.Tendsto
      (fun lambda => proximalLSP Real.sqrt Real.log id (fun _ => 0) (fun _ => (2 : ℝ)) 1 lambda 3 0)
      (nhdsWithin 0 (Set.Ici 0)) (nhds 2) ∧
    Filter.Tendsto (fun lambda => proximalMCP (fun _ => 0) (fun _ => (2 : ℝ)) 1 lambda 3 0)
      (nhdsWithin 0 (Set.Ici 0)) (nhds 2)) :=
  ⟨by simp,
    zero_regularization_limit (fun _ => 0) (fun _ => (2 : ℝ)) 1 3 (by simp) 0 (by simp)
      (by simp)⟩

/-- C10: large-`theta` limit of MCP. For fixed `d_i` and fixed `lambda ≥ 0`, the cell written
by `proximalMCP` tends to `sign(d_i)*max(|d_i| - lambda, 0)` as `theta` tends to infinity. -/
theorem mcp_large_theta_limit (x d : Int → ℝ) (n : Int) (lambda : ℝ) (hl : 0 ≤ lambda)
    (i : Int) (h0 : 0 ≤ i) (hn : i < n) :
    Filter.Tendsto (fun theta => proximalMCP x d n lambda theta i) Filter.atTop
      (nhds (Real.sign (d i) * max (|d i| - lambda) 0)) :=
  mcp_soft_threshold_limit x d n lambda hl i h0 hn

/-- C10, witness: `d = [-10.0]`, `lambda = 1.0`. -/
theorem mcp_large_theta_limit_witness :
    (0 : ℝ) ≤ 1 ∧
    Filter.Tendsto (fun theta => proximalMCP (fun _ => 0) (fun _ => (-10 : ℝ)) 1 1 theta 0)
      Filter.atTop (nhds (Real.sign (-10 : ℝ) * max (|(-10 : ℝ)| - 1) 0)) :=
  ⟨by simp,
    mcp_large_theta_limit (fun _ => 0) (fun _ => (-10 : ℝ)) 1 1 (by simp) 0 (by simp)
      (by simp)⟩

/-- C11: determinism. For every type code in `{1, 2, 3, 4}`, two invocations of `mexFunction`
with the same `n`, `lambda`, `theta`, `type` and input vectors that agree on the cells
`0 ≤ j < n` give the same output cells `0 ≤ i < n`: the output is a function of
`(d, n, lambda, theta, type)` only (the output buffer is created afresh in each call). -/
theorem mexFunction_deterministic {α : Type} [LinearOrderedField α] [FloorRing α]
    (sqrt log narrow : α → α) (d1 d2 : Int → α) (nArg lambda theta : α) (type : Int)
    (_htype : type = 1 ∨ type = 2 ∨ type = 3 ∨ type = 4)
    (hd : ∀ j, 0 ≤ j → j < trunc nArg → d1 j = d2 j) (i : Int) (h0 : 0 ≤ i)
    (hn : i < trunc nArg) :
    mexFunction sqrt log narrow d1 nArg lambda theta (type : α) i =
      mexFunction sqrt log narrow d2 nArg lambda theta (type : α) i :=
  mexFunction_congr sqrt log narrow d1 d2 nArg lambda theta type hd i h0 hn

/-- C11, witness: two input vectors that agree on cell `0` and differ elsewhere, `n = 1`,
type `4`. -/
theorem mexFunction_deterministic_witness :
    (((4 : Int) = 1 ∨ (4 : Int) = 2 ∨ (4 : Int) = 3 ∨ (4 : Int) = 4) ∧
      (∀ j : Int, 0 ≤ j → j < trunc (1 : ℚ) →
        (fun k : Int => if k = 0 then (5 : ℚ) else 7) j = (fun _ : Int => (5 : ℚ)) j) ∧
      (0 : Int) ≤ 0 ∧ (0 : Int) < trunc (1 : ℚ)) ∧
    mexFunction id id id (fun k : Int => if k = 0 then (5 : ℚ) else 7) 1 1 2 ((4 : Int) : ℚ) 0 =
      mexFunction id id id (fun _ : Int => (5 : ℚ)) 1 1 2 ((4 : Int) : ℚ) 0 :=
  have hk : trunc (1 : ℚ) = 1 := by simp [trunc]
  have hd : ∀ j : Int, 0 ≤ j → j < trunc (1 : ℚ) →
      (fun k : Int => if k = 0 then (5 : ℚ) else 7) j = (fun _ : Int => (5 : ℚ)) j := by
    intro j hj0 hj1
    rw [hk] at hj1
    have : j = 0 := by omega
    simp [this]
  ⟨⟨by decide, hd, le_refl _, by rw [hk]; decide⟩,
    mexFunction_deterministic id id id (fun k : Int => if k = 0 then (5 : ℚ) else 7)
      (fun _ : Int => (5 : ℚ)) 1 1 2 4 (by decide) hd 0 (le_refl _) (by rw [hk]; decide)⟩

/-- C13: the selection shortcut of `proximalCapL1` is an exact objective comparison. For every
`lambda`, `theta` and every cell `0 ≤ i < n`, with `u = |d_i|`, `x1 = max(u, theta)`,
`x2 = min(theta, max(0, u - lambda))` and `f(x) = 0.5*(x - u)^2 + lambda*min(x, theta)`, the
tested quantity `0.5*(x1 + x2 - 2u)*(x1 - x2) + lambda*(theta - x2)` equals `f(x1) - f(x2)`,
and the cell holds `x1` if `f(x1) < f(x2)` and `x2` otherwise (ties included), with the sign
of `d_i`. -/
theorem capL1_selection_exact {α : Type} [LinearOrderedField α] (x d : Int → α) (n : Int)
    (lambda theta : α) (i : Int) (h0 : 0 ≤ i) (hn : i < n) :
    ∃ x1 x2, x1 = max |d i| theta ∧ x2 = min theta (max 0 (|d i| - lambda)) ∧
      0.5 * (x1 + x2 - 2 * |d i|) * (x1 - x2) + lambda * (theta - x2) =
        capL1Objective |d i| lambda theta x1 - capL1Objective |d i| lambda theta x2 ∧
      proximalCapL1 x d n lambda theta i =
        if d i ≥ 0 then
          (if capL1Objective |d i| lambda theta x1 < capL1Objective |d i| lambda theta x2
            then x1 else x2)
        else
          -(if capL1Objective |d i| lambda theta x1 < capL1Objective |d i| lambda theta x2
            then x1 else x2) := by
  refine ⟨_, _, rfl, rfl, capL1_test_eq |d i| lambda theta, ?_⟩
  rw [proximalCapL1_cell x d n lambda theta i h0 hn]
  exact capL1Coord_objective (d i) lambda theta

/-- C13, witness: the scenario `d = [5.0]`, `lambda = 1.0`, `theta = 3.0`. -/
theorem capL1_selection_exact_witness :
    ((0 : Int) ≤ 0 ∧ (0 : Int) < 1) ∧
    ∃ x1 x2 : ℚ, x1 = max |(5 : ℚ)| 3 ∧ x2 = min 3 (max 0 (|(5 : ℚ)| - 1)) ∧
      0.5 * (x1 + x2 - 2 * |(5 : ℚ)|) * (x1 - x2) + 1 * (3 - x2) =
        capL1Objective |(5 : ℚ)| 1 3 x1 - capL1Objective |(5 : ℚ)| 1 3 x2 ∧
      proximalCapL1 (fun _ => 0) (fun _ => (5 : ℚ)) 1 1 3 0 =
        if (5 : ℚ) ≥ 0 then
          (if capL1Objective |(5 : ℚ)| 1 3 x1 < capL1Objective |(5 : ℚ)| 1 3 x2 then x1 else x2)
        else
          -(if capL1Objective |(5 : ℚ)| 1 3 x1 < capL1Objective |(5 : ℚ)| 1 3 x2
            then x1 else x2) :=
  ⟨⟨le_refl _, by decide⟩,
    capL1_selection_exact (fun _ => 0) (fun _ => (5 : ℚ)) 1 1 3 0 (le_refl _) (by decide)⟩

/-- C14: the selection shortcut of `proximalMCP` is an exact objective comparison in the three
branches. For `lambda ≥ 0`, `theta > 0` and every cell `0 ≤ i < n`, with `u = |d_i|`,
`z = theta*lambda`, `x1` the first candidate of the branch taken, `x2 = max(z, u)` and `g` the
MCP objective on magnitudes: `0 ≤ x1 ≤ z ≤ x2`, the tested quantity
`0.5*(x1 + x2 - 2u)*(x1 - x2) + x1*(lambda - 0.5*x1/theta) - 0.5*z*lambda` equals
`g(x1) - g(x2)`, and the cell holds `x1` if `g(x1) < g(x2)` and `x2` otherwise, with the sign
of `d_i`. -/
theorem mcp_selection_exact {α : Type} [LinearOrderedField α] (x d : Int → α) (n : Int)
    (lambda theta : α) (hl : 0 ≤ lambda) (ht : 0 < theta) (i : Int) (h0 : 0 ≤ i) (hn : i < n) :
    ∃ x1 x2,
      x1 = (if theta > 1 then
            min (theta * lambda) (max 0 (theta * (|d i| - lambda) / (theta - 1)))
          else if theta < 1 then
            (if |theta * (|d i| - lambda) / (theta - 1)| >
              |theta * (|d i| - lambda) / (theta - 1) - theta * lambda| then 0
              else theta * lambda)
          else (if lambda > |d i| then 0 else theta * lambda)) ∧
      x2 = max (theta * lambda) |d i| ∧
      0 ≤ x1 ∧ x1 ≤ theta * lambda ∧ theta * lambda ≤ x2 ∧
      0.5 * (x1 + x2 - 2 * |d i|) * (x1 - x2) + x1 * (lambda - 0.5 * x1 / theta)
          - 0.5 * (theta * lambda) * lambda =
        mcpObjective |d i| lambda theta x1 - mcpObjective |d i| lambda theta x2 ∧
      proximalMCP x d n lambda theta i =
        if d i ≥ 0 then
          (if mcpObjective |d i| lambda theta x1 < mcpObjective |d i| lambda theta x2
            then x1 else x2)
        else
          -(if mcpObjective |d i| lambda theta x1 < mcpObjective |d i| lambda theta x2
            then x1 else x2) := by
  obtain ⟨hx0, hxz⟩ := mcp_x1_bounds |d i| lambda theta hl ht
  have hx2 : theta * lambda ≤ max (theta * lambda) |d i| := le_max_left _ _
  refine ⟨_, _, rfl, rfl, hx0, hxz, hx2,
    mcpObjective_test |d i| lambda theta _ _ ht hxz hx2, ?_⟩
  rw [proximalMCP_cell_pick x d n lambda theta i h0 hn,
    mcpPick_objective |d i| lambda theta _ _ ht hxz hx2]

/-- C14, witness: the scenario `theta = 2.0`, `lambda = 1.0`, `d = [10.0]`. -/
theorem mcp_selection_exact_witness :
    ((0 : ℚ) ≤ 1 ∧ (0 : ℚ) < 2 ∧ (0 : Int) ≤ 0 ∧ (0 : Int) < 1) ∧
    ∃ x1 x2 : ℚ,
      x1 = (if (2 : ℚ) > 1 then
            min (2 * 1) (max 0 (2 * (|(10 : ℚ)| - 1) / (2 - 1)))
          else if (2 : ℚ) < 1 then
            (if |2 * (|(10 : ℚ)| - 1) / (2 - 1)| >
              |2 * (|(10 : ℚ)| - 1) / (2 - 1) - 2 * 1| then 0
              else 2 * 1)
          else (if (1 : ℚ) > |(10 : ℚ)| then 0 else 2 * 1)) ∧
      x2 = max (2 * 1) |(10 : ℚ)| ∧
      0 ≤ x1 ∧ x1 ≤ 2 * 1 ∧ 2 * 1 ≤ x2 ∧
      0.5 * (x1 + x2 - 2 * |(10 : ℚ)|) * (x1 - x2) + x1 * (1 - 0.5 * x1 / 2)
          - 0.5 * (2 * 1) * 1 =
        mcpObjective |(10 : ℚ)| 1 2 x1 - mcpObjective |(10 : ℚ)| 1 2 x2 ∧
      proximalMCP (fun _ => 0) (fun _ => (10 : ℚ)) 1 1 2 0 =
        if (10 : ℚ) ≥ 0 then
          (if mcpObjective |(10 : ℚ)| 1 2 x1 < mcpObjective |(10 : ℚ)| 1 2 x2 then x1 else x2)
        else
          -(if mcpObjective |(10 : ℚ)| 1 2 x1 < mcpObjective |(10 : ℚ)| 1 2 x2
            then x1 else x2) :=
  ⟨⟨zero_le_one, by simp, le_refl _, by decide⟩,
    mcp_selection_exact (fun _ => 0) (fun _ => (10 : ℚ)) 1 1 2 zero_le_one (by simp) 0
      (le_refl _) (by decide)⟩

/-- C15, counterexample: with a narrowing that sends the double `-10^-50` to zero (as the
conversion to single precision does: the magnitude is below `2^-150`), `lambda = -2` and
`theta = 1`, the input `d_i` is negative, the selected magnitude is `t = 1`, and the stored
value is `+1`, not `-t`. -/
theorem proximalLSP_sign_counterexample :
    (-(1 / 10 ^ 50) : ℝ) < 0 ∧
    lspMagnitude Real.sqrt Real.log |underflowToZero (-(1 / 10 ^ 50) : ℝ)| (-2) 1 = 1 ∧
    proximalLSP Real.sqrt Real.log underflowToZero (fun _ => 0)
      (fun _ => (-(1 / 10 ^ 50) : ℝ)) 1 (-2) 1 0 = 1 ∧
    proximalLSP Real.sqrt Real.log underflowToZero (fun _ => 0)
      (fun _ => (-(1 / 10 ^ 50) : ℝ)) 1 (-2) 1 0 ≠
        -lspMagnitude Real.sqrt Real.log |underflowToZero (-(1 / 10 ^ 50) : ℝ)| (-2) 1 := by
  obtain ⟨hm, hc⟩ := lspCoord_underflow_value
  have hcell := proximalLSP_cell Real.sqrt Real.log underflowToZero (fun _ => 0)
    (fun _ => (-(1 / 10 ^ 50) : ℝ)) 1 (-2) 1 0 (le_refl _) (by decide)
  refine ⟨by norm_num, hm, ?_, ?_⟩
  · rw [hcell]; exact hc
  · rw [hcell, hm]
    simp only []
    rw [hc]; norm_num

/-- C15, amended: `proximalLSP` restores the sign from the narrowed value. For every cell
`0 ≤ i < n`, with `t ≥ 0` the magnitude selected from `u = |narrow(d_i)|`, the cell holds `+t`
when `narrow(d_i) ≥ 0` and `-t` when `narrow(d_i) < 0`; the cell depends on `d_i` only through
`narrow(d_i)`. -/
theorem proximalLSP_sign_from_narrowed {α : Type} [LinearOrderedField α]
    (sqrt log narrow : α → α) (x d : Int → α) (n : Int) (lambda theta : α) (i : Int)
    (h0 : 0 ≤ i) (hn : i < n) :
    0 ≤ lspMagnitude sqrt log |narrow (d i)| lambda theta ∧
    proximalLSP sqrt log narrow x d n lambda theta i =
      (if narrow (d i) ≥ 0 then lspMagnitude sqrt log |narrow (d i)| lambda theta
        else -lspMagnitude sqrt log |narrow (d i)| lambda theta) ∧
    (∀ d2 : Int → α, narrow (d2 i) = narrow (d i) →
      proximalLSP sqrt log narrow x d2 n lambda theta i =
        proximalLSP sqrt log narrow x d n lambda theta i) := by
  refine ⟨lspMagnitude_nonneg sqrt log _ lambda theta, ?_, fun d2 h => ?_⟩
  · rw [proximalLSP_cell sqrt log narrow x d n lambda theta i h0 hn]
    exact lspCoord_eq_restore sqrt log narrow (d i) lambda theta
  · rw [proximalLSP_cell sqrt log narrow x d n lambda theta i h0 hn,
      proximalLSP_cell sqrt log narrow x d2 n lambda theta i h0 hn,
      lspCoord_eq_restore, lspCoord_eq_restore, h]

/-- C15, witness of the amended claim: `d = [-3.0]`, `lambda = 1`, `theta = 1`, the narrowing
the identity. -/
theorem proximalLSP_sign_from_narrowed_witness :
    ((0 : Int) ≤ 0 ∧ (0 : Int) < 1) ∧
    (0 ≤ lspMagnitude Real.sqrt Real.log |id (-3 : ℝ)| 1 1 ∧
    proximalLSP Real.sqrt Real.log id (fun _ => 0) (fun _ => (-3 : ℝ)) 1 1 1 0 =
      (if id (-3 : ℝ) ≥ 0 then lspMagnitude Real.sqrt Real.log |id (-3 : ℝ)| 1 1
        else -lspMagnitude Real.sqrt Real.log |id (-3 : ℝ)| 1 1) ∧
    (∀ d2 : Int → ℝ, id (d2 0) = id (-3 : ℝ) →
      proximalLSP Real.sqrt Real.log id (fun _ => 0) d2 1 1 1 0 =
        proximalLSP Real.sqrt Real.log id (fun _ => 0) (fun _ => (-3 : ℝ)) 1 1 1 0)) :=
  ⟨⟨le_refl _, by decide⟩,
    proximalLSP_sign_from_narrowed Real.sqrt Real.log id (fun _ => 0) (fun _ => (-3 : ℝ)) 1 1 1 0
      (le_refl _) (by decide)⟩

/-- C17: `proximalMCP` never divides by zero on its domain. For `theta > 0` and every cell
`0 ≤ i < n`, the round with every division guarded (by `theta - 1` in the branches
`theta > 1` and `theta < 1`, by `theta` in the selection) never fails and gives the value of
the cell; for `theta = 1` the round is the one of the last branch, which has no division by
`theta - 1`. -/
theorem proximalMCP_no_division_by_zero {α : Type} [LinearOrderedField α] (x d : Int → α)
    (n : Int) (lambda theta : α) (ht : 0 < theta) (i : Int) (h0 : 0 ≤ i) (hn : i < n) :
    mcpCoordChecked (d i) lambda theta = some (proximalMCP x d n lambda theta i) ∧
    (theta = 1 →
      mcpCoordChecked (d i) lambda theta = mcpCoordEqChecked (theta * lambda) (d i) lambda theta) := by
  refine ⟨mcpCoordChecked_eq x d n lambda theta ht i h0 hn, fun h1 => ?_⟩
  subst h1
  simp [mcpCoordChecked]

/-- C17, witness: `theta = 1`, `lambda = 1`, `d = [3.0]`. -/
theorem proximalMCP_no_division_by_zero_witness :
    ((0 : ℚ) < 1 ∧ (0 : Int) ≤ 0 ∧ (0 : Int) < 1) ∧
    (mcpCoordChecked ((fun _ => (3 : ℚ)) (0 : Int)) 1 1 =
      some (proximalMCP (fun _ => 0) (fun _ => (3 : ℚ)) 1 1 1 0) ∧
    ((1 : ℚ) = 1 →
      mcpCoordChecked ((fun _ => (3 : ℚ)) (0 : Int)) 1 1 =
        mcpCoordEqChecked (1 * 1) ((fun _ => (3 : ℚ)) (0 : Int)) 1 1)) :=
  ⟨⟨zero_lt_one, le_refl _, by decide⟩,
    proximalMCP_no_division_by_zero (fun _ => 0) (fun _ => (3 : ℚ)) 1 1 1 zero_lt_one 0
      (le_refl _) (by decide)⟩

end ProximalRegC
